import Mathlib

/-!
Goroutine dump diffing: the program `gdiff/gdiff.go`.

A shallow embedding of the parsing and diffing pipeline of `gdiff.go`:

* Go strings are byte sequences (`GoString`), `int64` values are `Int` with explicit
  two's-complement wrapping where the source does arithmetic, `uint32` hash values are `Nat`
  reduced modulo `2^32`;
* a Go `map[uint32]*stacktrace` is an association list with pairwise distinct keys (`AList`);
  the order of its entries stands for the (unspecified) iteration order of the map;
* a Go `panic` is the error side of `Except Panic`;
* where the question is what `diffFiles` writes, map values are references into a store of map
  objects (`Heap`) and `diffFiles` is run on the store.

The standard-library functions used by the program (`strings.Index`, `strings.SplitN`,
`strings.Split`, `strings.HasPrefix`, `strconv.ParseInt`, `fmt.Sprintf` with `%d`,
`hash/fnv`, `sort.Sort`) are modelled after their documented behaviour.
-/

namespace Gdiff

/-! ## Strings -/

/-- One byte of a Go string. -/
abbrev Byte := Fin 256

/-- Go `string`: a sequence of bytes. -/
abbrev GoString := List Byte

/-- The bytes of an ASCII literal. -/
def ascii (s : String) : GoString := s.toList.map (fun c => Fin.ofNat c.toNat)

/-- The delimiter `" @ "` between count and body. -/
def sepAt : GoString := [32, 64, 32]

/-- The record separator `"\n\n"`. -/
def sepBlank : GoString := [10, 10]

/-- The line separator `"\n"`. -/
def sepLine : GoString := [10]

/-- The header label `"goroutine"`. -/
def goroutineLabel : GoString := [103, 111, 114, 111, 117, 116, 105, 110, 101]

/-- Go `strings.HasPrefix(s, p)`. -/
def HasPrefix (s p : GoString) : Bool := p.isPrefixOf s

/-- Go `strings.Index(s, sep)`: the index of the first occurrence of `sep` in `s`,
`none` for Go's `-1`. -/
def Index : GoString → GoString → Option Nat
  | [], sep => if sep = [] then some 0 else none
  | c :: cs, sep =>
    if HasPrefix (c :: cs) sep then some 0 else (Index cs sep).map (· + 1)

/-- The loop of Go `strings.genSplit` for a non-empty separator: at most `n` cuts at successive
first occurrences of `sep`, the rest of the string being the last piece. -/
def genSplit (sep : GoString) : Nat → GoString → List GoString
  | 0, s => [s]
  | n + 1, s =>
    match Index s sep with
    | none => [s]
    | some m => s.take m :: genSplit sep n (s.drop (m + sep.length))

/-- Go `strings.SplitN(s, sep, 2)` for a non-empty separator: one cut at most. -/
def SplitN2 (s sep : GoString) : List GoString := genSplit sep 1 s

/-- Go `strings.Split(s, sep)` for a non-empty separator: cut at every occurrence, scanning
left to right. The number of cuts is the number of non-overlapping occurrences, which is at
most `len(s)`; the loop also stops at the first failed `Index`. -/
def Split (s sep : GoString) : List GoString := genSplit sep s.length s

/-! ## FNV-1a, 32 bit -/

/-- Offset basis of 32-bit FNV. -/
def fnvOffset32 : Nat := 2166136261

/-- Prime of 32-bit FNV. -/
def fnvPrime32 : Nat := 16777619

/-- Go `fnv.New32a()`, `Write(b)`, `Sum32()`: per byte, xor then multiply modulo `2^32`. -/
def fnv32a (b : GoString) : Nat :=
  b.foldl (fun h c => ((h ^^^ c.val) * fnvPrime32) % 2 ^ 32) fnvOffset32

/-! ## Integers -/

/-- Smallest `int64`. -/
def minInt64 : Int := -(2 ^ 63)

/-- Largest `int64`. -/
def maxInt64 : Int := 2 ^ 63 - 1

/-- The value is representable as an `int64`. -/
def isInt64 (x : Int) : Prop := minInt64 ≤ x ∧ x ≤ maxInt64

instance (x : Int) : Decidable (isInt64 x) := by unfold isInt64; infer_instance

/-- Two's-complement reduction of an integer to `int64`. -/
def wrap64 (x : Int) : Int := (x + 2 ^ 63) % 2 ^ 64 - 2 ^ 63

/-- The byte is an ASCII decimal digit. -/
def isDigit (c : Byte) : Bool := 48 ≤ c.val && c.val ≤ 57

/-- The digit loop of Go `strconv.ParseUint` in base 10: `none` is a syntax error (an empty
string or a byte that is not a digit). The value is not truncated; the caller checks the range. -/
def parseDigits : GoString → Nat → Option Nat
  | [], acc => some acc
  | c :: cs, acc => if isDigit c then parseDigits cs (acc * 10 + (c.val - 48)) else none

/-- Go `strconv.ParseUint(s, 10, 64)` up to the range check. -/
def ParseUint (s : GoString) : Option Nat :=
  match s with
  | [] => none
  | _ :: _ => parseDigits s 0

/-- Go `strconv.ParseInt(s, 10, 64)`: an optional sign, then decimal digits, the value in the
range of `int64`. `none` stands for a non-nil `err` (syntax or range). -/
def ParseInt (s : GoString) : Option Int :=
  match s with
  | [] => none
  | c :: rest =>
    let neg : Bool := c = 45
    let body := if c = 43 ∨ c = 45 then rest else s
    match ParseUint body with
    | none => none
    | some un =>
      if !neg && un ≥ 2 ^ 63 then none
      else if neg && un > 2 ^ 63 then none
      else some (if neg then -(un : Int) else (un : Int))

/-- Decimal digits of `u`, most significant first, written as Go's `fmt` does: the last digit
is `u % 10`, the digits before it are those of `u / 10` while `u ≥ 10`. The first argument
bounds the number of digits after the first. -/
def fmtDigits : Nat → Nat → GoString
  | 0, u => [Fin.ofNat (48 + u % 10)]
  | f + 1, u =>
    if u < 10 then [Fin.ofNat (48 + u)]
    else fmtDigits f (u / 10) ++ [Fin.ofNat (48 + u % 10)]

/-- Go `fmt` verb `%d` on an `int64`: a minus sign for a negative value, then the decimal
digits of the magnitude (at most 20 for 64 bits). -/
def formatInt (n : Int) : GoString :=
  if n < 0 then 45 :: fmtDigits 19 n.natAbs else fmtDigits 19 n.natAbs

/-! ## Records -/

/-- A failure that ends the run. -/
inductive Panic where
  /-- Run-time error: index out of range. -/
  | indexOutOfRange
  /-- The program's own `panic("invalid integer '...'")`. -/
  | invalidInteger (token : GoString)
  deriving DecidableEq, Repr

deriving instance DecidableEq for Except

/-- Go `type stacktrace struct`. -/
structure stacktrace where
  /-- Field `Num int64`. -/
  Num : Int
  /-- Field `Data string`. -/
  Data : GoString
  /-- Field `Sum uint32`. -/
  Sum : Nat
  deriving DecidableEq, Repr

/-- Method `(*stacktrace).Length`. -/
def stacktrace.Length (s : stacktrace) : Int := s.Num

/-- Function `newStackTrace`: split at the first `" @ "`, parse the count, hash the body.
`pieces[1]` is read (by `h.Write`) before the parse error is looked at, so a text without
`" @ "` fails with an index out of range. -/
def newStackTrace (data : GoString) : Except Panic stacktrace :=
  let pieces := SplitN2 data sepAt
  let num := ParseInt (pieces.headD [])
  match pieces[1]? with
  | none => .error .indexOutOfRange
  | some body =>
    match num with
    | none => .error (.invalidInteger (pieces.headD []))
    | some n => .ok { Num := n, Data := body, Sum := fnv32a body }

/-- Method `(*stacktrace).String`: `fmt.Sprintf("%d @ %s", s.Num, s.Data)`. -/
def stacktrace.String (s : stacktrace) : GoString :=
  formatInt s.Num ++ sepAt ++ s.Data

/-! ## Snapshots -/

/-- Go `map[uint32]*stacktrace`: keys are pairwise distinct; the order of the entries stands
for the iteration order of the map. -/
abbrev StackMap := AList (fun _ : Nat => stacktrace)

/-- Go `type file struct`. -/
structure file where
  /-- Field `Stacks map[uint32]*stacktrace`. -/
  Stacks : StackMap

instance : DecidableEq file := fun a b =>
  decidable_of_iff (a.Stacks.entries = b.Stacks.entries)
    ⟨fun h => by
      cases a; cases b
      exact congrArg file.mk (AList.ext h), fun h => by rw [h]⟩

/-- The part of the loop body of `newFile` that turns one piece into a record: a piece that
begins with `"goroutine"` or is empty is cut at its first newline; the empty piece is skipped
(`none`, the `continue`), otherwise the text after the newline (`inner[1]`) is parsed; any
other piece is parsed whole. -/
def pieceTrace (v : GoString) : Except Panic (Option stacktrace) :=
  if HasPrefix v goroutineLabel || v = [] then
    let inner := SplitN2 v sepLine
    if v.length < 1 then .ok none
    else
      match inner[1]? with
      | none => .error .indexOutOfRange
      | some w => (newStackTrace w).map some
  else (newStackTrace v).map some

/-- The loop `for _, v := range pieces` of `newFile`, on the map built so far. -/
def newFileLoop (threshold : Int) : List GoString → StackMap → Except Panic StackMap
  | [], stks => .ok stks
  | v :: rest, stks =>
    match pieceTrace v with
    | .error e => .error e
    | .ok none => newFileLoop threshold rest stks
    | .ok (some trace) =>
      newFileLoop threshold rest
        (if trace.Num > threshold then stks.insert trace.Sum trace else stks)

/-- Function `newFile`, from the text `data` read from the file: split on blank lines and run
the loop from the empty map. (The size hint of `make` and the `Println` have no effect on the
result.) -/
def newFile (data : GoString) (threshold : Int) : Except Panic file :=
  (newFileLoop threshold (Split data sepBlank) ∅).map file.mk

/-! ## Diff -/

/-- Go `type sameStack struct`. -/
structure sameStack where
  /-- Field `LeftNum int64`. -/
  LeftNum : Int
  /-- Field `RightNum int64`. -/
  RightNum : Int
  /-- Field `Data string`. -/
  Data : GoString
  deriving DecidableEq, Repr

/-- Method `(*sameStack).Length`. -/
def sameStack.Length (s : sameStack) : Int :=
  if s.LeftNum > s.RightNum then s.LeftNum else s.RightNum

/-- Function `abs` on `int64`: the negation wraps. -/
def abs (x : Int) : Int := if x < 0 then wrap64 (-x) else x

/-- The `int64` subtraction `l.Num - r.Num`. -/
def sub64 (a b : Int) : Int := wrap64 (a - b)

/-- Go `sort.Sort(ByNum(a))`: `Less(i, j)` is `a[i].Length() > a[j].Length()`. The order among
entries of equal length is not fixed by `sort.Sort`; this is one such result. -/
def sortByNum (a : List stacktrace) : List stacktrace :=
  a.insertionSort (fun x y => y.Length ≤ x.Length)

/-- Go `sort.Sort(SameByNum(a))`, as `sortByNum`. -/
def sortSameByNum (a : List sameStack) : List sameStack :=
  a.insertionSort (fun x y => y.Length ≤ x.Length)

/-- The variables of the second loop of `diffFiles`. -/
structure DiffState where
  /-- The working copy of the left map. -/
  newleftmap : StackMap
  /-- The matched pairs collected so far. -/
  same : List sameStack
  /-- The right records without a left counterpart collected so far. -/
  rightnotleft : List stacktrace

/-- One iteration of `for k, r := range right.Stacks`. -/
def diffStep (diff : Int) (st : DiffState) (k : Nat) (r : stacktrace) : DiffState :=
  match st.newleftmap.lookup k with
  | some l =>
    { newleftmap := st.newleftmap.erase k
      same :=
        if abs (sub64 l.Num r.Num) > diff then
          st.same ++ [{ LeftNum := l.Num, RightNum := r.Num, Data := l.Data }]
        else st.same
      rightnotleft := st.rightnotleft }
  | none =>
    { newleftmap := st.newleftmap
      same := st.same
      rightnotleft := st.rightnotleft ++ [r] }

/-- The first loop of `diffFiles`: `newleftmap[k] = v` for every entry of the left map. -/
def copyMap (m : StackMap) : StackMap :=
  m.entries.foldl (fun acc e => acc.insert e.1 e.2) ∅

/-- The second loop of `diffFiles`, from the working copy and empty lists. -/
def diffLoop (left right : file) (diff : Int) : DiffState :=
  right.Stacks.entries.foldl (fun st e => diffStep diff st e.1 e.2)
    { newleftmap := copyMap left.Stacks, same := [], rightnotleft := [] }

/-- The three results of `diffFiles`. -/
structure DiffResult where
  /-- Result `same`. -/
  same : List sameStack
  /-- Result `leftnotright`. -/
  leftnotright : List stacktrace
  /-- Result `rightnotleft`. -/
  rightnotleft : List stacktrace
  deriving DecidableEq, Repr

/-- Function `diffFiles`. -/
def diffFiles (left right : file) (diff : Int) : DiffResult :=
  let st := diffLoop left right diff
  let leftnotright := st.newleftmap.entries.map (fun e => e.2)
  { same := sortSameByNum st.same
    leftnotright := sortByNum leftnotright
    rightnotleft := sortByNum st.rightnotleft }

/-! ## Reference descriptions of the results of `diffFiles` -/

/-- The pair that a right entry `e` is reported with against the left map `M`: present when the
key of `e` is in `M` and the computed distance of the two counts exceeds `diff`. -/
def pairOf (diff : Int) (M : StackMap) (e : (_ : Nat) × stacktrace) : Option sameStack :=
  match M.lookup e.1 with
  | some l =>
    if abs (sub64 l.Num e.2.Num) > diff then
      some { LeftNum := l.Num, RightNum := e.2.Num, Data := l.Data }
    else none
  | none => none

/-- The records of `M` whose key is not a key of `N`, in the order of `M`. -/
def unmatched (M N : StackMap) : List stacktrace :=
  (M.entries.filter (fun e => decide (e.1 ∉ N.keys))).map (fun e => e.2)

/-! ## Reference descriptions of the input grammar -/

/-- The number written by a string of decimal digits. -/
def decimalValue (ds : GoString) : Nat := ds.foldl (fun a c => a * 10 + (c.val - 48)) 0

/-- A valid base-10 signed 64-bit integer token: an optional sign `+` or `-`, then at least one
decimal digit and nothing else, the number written lying between `-2^63` and `2^63 - 1`. -/
def validCount (tok : GoString) : Bool :=
  match tok with
  | [] => false
  | c :: rest =>
    if c = 45 then !rest.isEmpty && rest.all isDigit && decide (decimalValue rest ≤ 2 ^ 63)
    else if c = 43 then !rest.isEmpty && rest.all isDigit && decide (decimalValue rest < 2 ^ 63)
    else tok.all isDigit && decide (decimalValue tok < 2 ^ 63)

/-- The integer written by a valid count token. -/
def countValue (tok : GoString) : Int :=
  match tok with
  | [] => 0
  | c :: rest =>
    if c = 45 then -(decimalValue rest : Int)
    else if c = 43 then (decimalValue rest : Int)
    else (decimalValue tok : Int)

/-- The leading token of a record text: the text before the first `" @ "`, when there is one. -/
def leadingToken (w : GoString) : Option GoString :=
  (Index w sepAt).map (fun m => w.take m)

/-- The record text of a piece: the piece without its first line when it begins with
`"goroutine"` (none when it has no newline), the piece itself otherwise. -/
def recordText (v : GoString) : Option GoString :=
  if HasPrefix v goroutineLabel then (Index v sepLine).map (fun m => v.drop (m + 1))
  else some v

/-- White space: space, tab, newline, vertical tab, form feed, carriage return. -/
def isSpace (c : Byte) : Bool := c = 32 || c = 9 || c = 10 || c = 11 || c = 12 || c = 13

/-- The piece is empty after trimming white space. -/
def isBlank (v : GoString) : Bool := v.all isSpace

/-- Snapshot of the dump `"9223372036854775807 @ foo"` at threshold `-2`. -/
def overflowLeft : file :=
  ⟨(∅ : StackMap).insert (fnv32a (ascii "foo"))
    ⟨9223372036854775807, ascii "foo", fnv32a (ascii "foo")⟩⟩

/-- Snapshot of the dump `"-1 @ foo"` at threshold `-2`. -/
def overflowRight : file :=
  ⟨(∅ : StackMap).insert (fnv32a (ascii "foo")) ⟨-1, ascii "foo", fnv32a (ascii "foo")⟩⟩

/-! ## Order used by the sorts -/

instance : IsTotal stacktrace (fun x y => y.Length ≤ x.Length) :=
  ⟨fun x y => le_total y.Length x.Length⟩

instance : IsTrans stacktrace (fun x y => y.Length ≤ x.Length) :=
  ⟨fun _ _ _ h1 h2 => le_trans h2 h1⟩

/-! ## Sample snapshots -/

/-- A snapshot with two records, with keys 7 and 9. -/
def exampleLeft : file :=
  ⟨((∅ : StackMap).insert 7 ⟨12, ascii "foo", 7⟩).insert 9 ⟨3, ascii "bar", 9⟩⟩

/-- A snapshot sharing one key with `exampleLeft`. -/
def exampleRight : file :=
  ⟨((∅ : StackMap).insert 7 ⟨20, ascii "foo", 7⟩).insert 4 ⟨15, ascii "baz", 4⟩⟩

/-! ## Rendering in `main` -/

/-- Method `(*sameStack).String`: `fmt.Sprintf("Left: %d Right: %d @ %s", ...)`. -/
def sameStack.String (s : sameStack) : GoString :=
  ascii "Left: " ++ formatInt s.LeftNum ++ ascii " Right: " ++ formatInt s.RightNum ++
    sepAt ++ s.Data

/-- The loop `for _, v := range same` of `main`: the lines it prints, an entry with equal counts
being passed over when the flag `omitidentical` is set. -/
def printedSame (omitidentical : Bool) : List sameStack → List GoString
  | [] => []
  | v :: rest =>
    if v.LeftNum = v.RightNum ∧ omitidentical = true then printedSame omitidentical rest
    else v.String :: printedSame omitidentical rest

instance : IsTotal sameStack (fun x y => y.Length ≤ x.Length) :=
  ⟨fun x y => le_total y.Length x.Length⟩

instance : IsTrans sameStack (fun x y => y.Length ≤ x.Length) :=
  ⟨fun _ _ _ h1 h2 => le_trans h2 h1⟩

/-! ## Maps as references

A Go map value is a reference to a map object. To speak about what `diffFiles` writes, the
objects live in a store and `diffFiles` is run on references into it. -/

/-- The store of map objects; a reference is an index into it. -/
structure Heap where
  /-- The map objects allocated so far. -/
  maps : List StackMap

/-- Go `make(map[uint32]*stacktrace)`: a new empty map object and the reference to it. -/
def Heap.make (h : Heap) : Heap × Nat := (⟨h.maps ++ [∅]⟩, h.maps.length)

/-- The map object behind a reference. -/
def Heap.read (h : Heap) (a : Nat) : StackMap := h.maps.getD a ∅

/-- Replace the map object behind a reference. -/
def Heap.write (h : Heap) (a : Nat) (m : StackMap) : Heap := ⟨h.maps.set a m⟩

/-- Go `*file`: the field `Stacks` refers to a map object of the store. -/
structure fileRef where
  /-- Field `Stacks`, a reference. -/
  Stacks : Nat

/-- The first loop of `diffFiles` on the store: `newleftmap[k] = v` writes the object behind
`newleftmap`. -/
def heapCopyLoop (newleftmap : Nat) : List ((_ : Nat) × stacktrace) → Heap → Heap
  | [], h => h
  | e :: es, h =>
    heapCopyLoop newleftmap es (h.write newleftmap ((h.read newleftmap).insert e.1 e.2))

/-- The variables of the second loop of `diffFiles` together with the store. -/
structure HeapDiffState where
  /-- The store. -/
  heap : Heap
  /-- The matched pairs collected so far. -/
  same : List sameStack
  /-- The right records without a left counterpart collected so far. -/
  rightnotleft : List stacktrace

/-- One iteration of `for k, r := range right.Stacks` on the store: the lookup reads and the
`delete` writes the object behind `newleftmap`. -/
def heapDiffStep (newleftmap : Nat) (diff : Int) (st : HeapDiffState) (k : Nat)
    (r : stacktrace) : HeapDiffState :=
  match (st.heap.read newleftmap).lookup k with
  | some l =>
    { heap := st.heap.write newleftmap ((st.heap.read newleftmap).erase k)
      same :=
        if abs (sub64 l.Num r.Num) > diff then
          st.same ++ [{ LeftNum := l.Num, RightNum := r.Num, Data := l.Data }]
        else st.same
      rightnotleft := st.rightnotleft }
  | none =>
    { heap := st.heap
      same := st.same
      rightnotleft := st.rightnotleft ++ [r] }

/-- Function `diffFiles` run on the store: the store after the call and the three results. -/
def diffFilesHeap (h : Heap) (left right : fileRef) (diff : Int) : Heap × DiffResult :=
  let (h1, newleftmap) := h.make
  let h2 := heapCopyLoop newleftmap (h1.read left.Stacks).entries h1
  let st := (h2.read right.Stacks).entries.foldl
    (fun st e => heapDiffStep newleftmap diff st e.1 e.2)
    { heap := h2, same := [], rightnotleft := [] }
  let leftnotright := (st.heap.read newleftmap).entries.map (fun e => e.2)
  (st.heap,
    { same := sortSameByNum st.same
      leftnotright := sortByNum leftnotright
      rightnotleft := sortByNum st.rightnotleft })

/-- The store `h` extended by one object `w`, the state of the store during `diffFiles`. -/
def Heap.extend (h : Heap) (w : StackMap) : Heap := ⟨h.maps ++ [w]⟩

/-! ## The scenario of two dumps -/

/-- Snapshot of the dump `"12 @ foo\n\n3 @ bar"` at threshold 10. -/
def scenarioLeft : file :=
  ⟨(∅ : StackMap).insert (fnv32a (ascii "foo")) ⟨12, ascii "foo", fnv32a (ascii "foo")⟩⟩

/-- Snapshot of the dump `"20 @ foo\n\n15 @ baz"` at threshold 10. -/
def scenarioRight : file :=
  ⟨((∅ : StackMap).insert (fnv32a (ascii "foo")) ⟨20, ascii "foo", fnv32a (ascii "foo")⟩).insert
    (fnv32a (ascii "baz")) ⟨15, ascii "baz", fnv32a (ascii "baz")⟩⟩

/-- A store with the two sample snapshots. -/
def exampleHeap : Heap := ⟨[exampleLeft.Stacks, exampleRight.Stacks]⟩

/-! ## Checks of the model on known values -/

theorem ascii_constants :
    ascii " @ " = sepAt ∧ ascii "\n\n" = sepBlank ∧ ascii "\n" = sepLine ∧
      ascii "goroutine" = goroutineLabel := by decide

theorem fnv32a_vectors :
    fnv32a [] = 0x811c9dc5 ∧ fnv32a (ascii "a") = 0xe40c292c ∧
      fnv32a (ascii "foobar") = 0xbf9cf968 := by decide

theorem Split_sample :
    Split (ascii "a\n\nb\n\n\nc\n\n") sepBlank = [ascii "a", ascii "b", ascii "\nc", []] := by
  decide

theorem ParseInt_samples :
    ParseInt (ascii "-9223372036854775808") = some (-9223372036854775808) ∧
      ParseInt (ascii "9223372036854775808") = none ∧ ParseInt (ascii "+5") = some 5 ∧
      ParseInt (ascii "") = none ∧ ParseInt (ascii "-") = none ∧
      ParseInt (ascii "1_0") = none := by decide

theorem formatInt_samples :
    formatInt (-9223372036854775808) = ascii "-9223372036854775808" ∧
      formatInt 0 = ascii "0" ∧ formatInt 9223372036854775807 = ascii "9223372036854775807" := by
  decide

theorem newFile_sample_header :
    newFile (ascii "goroutine profile: total 3\n12 @ foo\n#\t0x1\n\n") 10 =
      .ok ⟨(∅ : StackMap).insert (fnv32a (ascii "foo\n#\t0x1"))
        ⟨12, ascii "foo\n#\t0x1", fnv32a (ascii "foo\n#\t0x1")⟩⟩ := by decide

/-! ## Decimal formatting and parsing -/

theorem digit_val (k : Nat) (hk : k < 10) : ((Fin.ofNat (48 + k) : Byte)).val = 48 + k := by
  show (48 + k) % 256 = 48 + k
  omega

theorem isDigit_digit (k : Nat) (hk : k < 10) : isDigit (Fin.ofNat (48 + k)) = true := by
  simp only [isDigit, digit_val k hk, Bool.and_eq_true, decide_eq_true_eq]
  omega

theorem isDigit_ne (c : Byte) (hc : isDigit c = true) : c ≠ 32 ∧ c ≠ 43 ∧ c ≠ 45 := by
  simp only [isDigit, Bool.and_eq_true, decide_eq_true_eq] at hc
  refine ⟨?_, ?_, ?_⟩ <;> rintro rfl <;> exact absurd hc (by decide)

theorem fmtDigits_ne_nil (f u : Nat) : fmtDigits f u ≠ [] := by
  cases f with
  | zero => simp [fmtDigits]
  | succ f =>
    unfold fmtDigits
    split <;> simp

theorem fmtDigits_isDigit (f u : Nat) : ∀ c ∈ fmtDigits f u, isDigit c = true := by
  induction f generalizing u with
  | zero =>
    intro c hc
    simp only [fmtDigits, List.mem_singleton] at hc
    subst hc
    exact isDigit_digit _ (Nat.mod_lt _ (by decide))
  | succ f ih =>
    intro c hc
    unfold fmtDigits at hc
    split at hc
    · simp only [List.mem_singleton] at hc
      subst hc
      exact isDigit_digit _ (by assumption)
    · rcases List.mem_append.1 hc with h | h
      · exact ih _ c h
      · simp only [List.mem_singleton] at h
        subst h
        exact isDigit_digit _ (Nat.mod_lt _ (by decide))

theorem parseDigits_append (a b : GoString) (acc : Nat) :
    parseDigits (a ++ b) acc = (parseDigits a acc).bind (parseDigits b) := by
  induction a generalizing acc with
  | nil => rfl
  | cons c cs ih =>
    simp only [List.cons_append, parseDigits]
    split
    · exact ih _
    · rfl

theorem parseDigits_digit (k acc : Nat) (hk : k < 10) :
    parseDigits [Fin.ofNat (48 + k)] acc = some (acc * 10 + k) := by
  simp [parseDigits, isDigit_digit k hk, digit_val k hk]

theorem parseDigits_fmtDigits (f u : Nat) (hu : u < 10 ^ (f + 1)) :
    parseDigits (fmtDigits f u) 0 = some u := by
  induction f generalizing u with
  | zero =>
    have h10 : u < 10 := by simpa using hu
    simp only [fmtDigits]
    rw [parseDigits_digit _ _ (Nat.mod_lt _ (by decide))]
    simp [Nat.mod_eq_of_lt h10]
  | succ f ih =>
    unfold fmtDigits
    split
    · rename_i h
      rw [parseDigits_digit _ _ h]
      simp
    · have hdiv : u / 10 < 10 ^ (f + 1) := by
        rw [Nat.div_lt_iff_lt_mul (by decide)]
        calc u < 10 ^ (f + 1 + 1) := hu
          _ = 10 ^ (f + 1) * 10 := by rw [pow_succ]
      rw [parseDigits_append, ih _ hdiv]
      simp only [Option.some_bind]
      rw [parseDigits_digit _ _ (Nat.mod_lt _ (by decide))]
      congr 1
      omega

theorem ParseUint_fmtDigits (f u : Nat) (hu : u < 10 ^ (f + 1)) :
    ParseUint (fmtDigits f u) = some u := by
  have hne := fmtDigits_ne_nil f u
  have hp := parseDigits_fmtDigits f u hu
  unfold ParseUint
  split
  · rename_i h
    exact absurd h hne
  · exact hp

/-- Parsing the decimal rendering of an `int64` gives the value back. -/
theorem ParseInt_formatInt (n : Int) (hn : isInt64 n) : ParseInt (formatInt n) = some n := by
  obtain ⟨hlo, hhi⟩ := hn
  simp only [minInt64, maxInt64] at hlo hhi
  have hbound : n.natAbs < 10 ^ (19 + 1) := by
    have : n.natAbs ≤ 2 ^ 63 := by omega
    calc n.natAbs ≤ 2 ^ 63 := this
      _ < 10 ^ (19 + 1) := by norm_num
  have hparse := ParseUint_fmtDigits 19 n.natAbs hbound
  unfold formatInt
  by_cases hneg : n < 0
  · simp only [hneg, if_true, ParseInt]
    simp only [or_true, if_true, hparse, decide_True]
    have h1 : ¬ (n.natAbs > 2 ^ 63) := by omega
    have h2 : -(n.natAbs : Int) = n := by omega
    simp only [Bool.not_true, Bool.false_and, Bool.true_and, decide_eq_true_eq, h1, if_false,
      if_true, h2]
    rfl
  · simp only [hneg, if_false]
    have hne := fmtDigits_ne_nil 19 n.natAbs
    have hdig := fmtDigits_isDigit 19 n.natAbs
    rcases hfd : fmtDigits 19 n.natAbs with _ | ⟨c, cs⟩
    · exact absurd hfd hne
    · rw [hfd] at hparse hdig
      obtain ⟨-, h43, h45⟩ := isDigit_ne c (hdig c (List.mem_cons_self _ _))
      simp only [ParseInt, h43, h45, or_self, if_false, hparse, decide_False]
      have h1 : ¬ (n.natAbs ≥ 2 ^ 63) := by omega
      have h2 : (n.natAbs : Int) = n := by omega
      simp only [Bool.not_false, Bool.true_and, decide_eq_true_eq, h1, if_false, Bool.false_and,
        h2]
      rfl

/-! ## Cutting at a separator -/

theorem hasPrefix_append (sep r : GoString) : HasPrefix (sep ++ r) sep = true := by
  simp [HasPrefix]

theorem Index_append_sep (p r : GoString) (h : Byte) (t : GoString)
    (hp : ∀ c ∈ p, c ≠ h) : Index (p ++ (h :: (t ++ r))) (h :: t) = some p.length := by
  induction p with
  | nil =>
    rw [List.nil_append, Index, if_pos]
    · rfl
    · simpa using hasPrefix_append (h :: t) r
  | cons c cs ih =>
    have hc : c ≠ h := hp c (List.mem_cons_self _ _)
    have hcs : ∀ x ∈ cs, x ≠ h := fun x hx => hp x (List.mem_cons_of_mem _ hx)
    rw [List.cons_append, Index, if_neg, ih hcs]
    · rfl
    · simp [HasPrefix, List.isPrefixOf, Ne.symm hc]

theorem SplitN2_append_sep (p r : GoString) (h : Byte) (t : GoString)
    (hp : ∀ c ∈ p, c ≠ h) : SplitN2 (p ++ (h :: t) ++ r) (h :: t) = [p, r] := by
  have hi := Index_append_sep p r h t hp
  have e : p ++ (h :: t) ++ r = p ++ (h :: (t ++ r)) := by simp
  rw [e]
  unfold SplitN2 genSplit
  rw [hi]
  have hd : List.drop (p.length + (h :: t).length) (p ++ h :: (t ++ r)) = r := by
    rw [List.drop_append]
    simp
  simp only [genSplit, hd, List.take_left']

theorem formatInt_ne_space (n : Int) : ∀ c ∈ formatInt n, c ≠ 32 := by
  intro c hc
  unfold formatInt at hc
  split at hc
  · rcases List.mem_cons.1 hc with h | h
    · subst h; decide
    · exact (isDigit_ne c (fmtDigits_isDigit _ _ c h)).1
  · exact (isDigit_ne c (fmtDigits_isDigit _ _ c hc)).1

/-- Claim C1. Round trip: for every `int64` count `n`, every body `b` (whatever it contains) and
every stored hash `s`, `newStackTrace` applied to the rendering `String()` of the record
`{Num: n, Data: b, Sum: s}` succeeds and returns a record with `Num = n` and `Data = b` (its
`Sum` being the FNV-1a hash of `b`). -/
theorem newStackTrace_String_roundtrip (n : Int) (b : GoString) (s : Nat) (hn : isInt64 n) :
    newStackTrace (stacktrace.String { Num := n, Data := b, Sum := s }) =
      .ok { Num := n, Data := b, Sum := fnv32a b } := by
  have hsplit : SplitN2 (formatInt n ++ sepAt ++ b) sepAt = [formatInt n, b] :=
    SplitN2_append_sep (formatInt n) b 32 [64, 32] (formatInt_ne_space n)
  simp only [newStackTrace, stacktrace.String, hsplit, List.headD_cons,
    ParseInt_formatInt n hn]
  rfl

/-- Instance of `newStackTrace_String_roundtrip`: the smallest `int64` with a body that holds
the delimiter and a newline. -/
theorem newStackTrace_String_roundtrip_witness :
    isInt64 (-9223372036854775808) ∧
      newStackTrace (stacktrace.String
        { Num := -9223372036854775808, Data := ascii "a @ b\nc", Sum := 0 }) =
        .ok { Num := -9223372036854775808, Data := ascii "a @ b\nc",
              Sum := fnv32a (ascii "a @ b\nc") } :=
  ⟨by decide, newStackTrace_String_roundtrip _ _ _ (by decide)⟩

/-! ## The loops of `diffFiles` -/

theorem kerase_eq_filter (a : Nat) (l : List ((_ : Nat) × stacktrace)) (nd : l.NodupKeys) :
    List.kerase a l = l.filter (fun e => decide (e.1 ≠ a)) := by
  induction l with
  | nil => rfl
  | cons s l ih =>
    have ndl : l.NodupKeys := (List.nodupKeys_cons.1 nd).2
    by_cases h : a = s.1
    · have hnot : a ∉ l.keys := h ▸ (List.nodupKeys_cons.1 nd).1
      rw [List.kerase_cons_eq h, List.filter_cons_of_neg (by simp [h])]
      rw [← ih ndl, List.kerase_of_not_mem_keys hnot]
    · rw [List.kerase_cons_ne h, List.filter_cons_of_pos (by simpa using Ne.symm h), ih ndl]

theorem copyMap_fold (l : List ((_ : Nat) × stacktrace)) (acc : StackMap)
    (nd : l.NodupKeys) (hdis : ∀ a ∈ l.keys, a ∉ acc.keys) :
    (l.foldl (fun acc e => acc.insert e.1 e.2) acc).entries = l.reverse ++ acc.entries := by
  induction l generalizing acc with
  | nil => rfl
  | cons s l ih =>
    obtain ⟨hs, ndl⟩ := List.nodupKeys_cons.1 nd
    have hsacc : s.1 ∉ acc := by
      rw [AList.mem_keys]
      exact hdis s.1 (by simp)
    have hins : (acc.insert s.1 s.2).entries = s :: acc.entries :=
      AList.insert_entries_of_neg hsacc
    rw [List.foldl_cons, ih _ ndl, hins]
    · simp
    · intro a ha
      rw [AList.keys_insert]
      intro hmem
      rcases List.mem_cons.1 hmem with h | h
      · exact hs (h ▸ ha)
      · exact hdis a (List.mem_cons_of_mem _ ha) (List.mem_of_mem_erase h)

/-- The working copy holds the entries of the left map (in reverse order of insertion). -/
theorem copyMap_entries (m : StackMap) : (copyMap m).entries = m.entries.reverse := by
  unfold copyMap
  rw [copyMap_fold m.entries ∅ m.nodupKeys (by simp)]
  simp

theorem copyMap_keys_mem (m : StackMap) (k : Nat) : k ∈ (copyMap m).keys ↔ k ∈ m.keys := by
  simp [AList.keys, copyMap_entries, List.keys]

/-- The working copy maps every key to the record of the left map. -/
theorem copyMap_lookup (m : StackMap) (k : Nat) : (copyMap m).lookup k = m.lookup k :=
  AList.perm_lookup (by rw [copyMap_entries]; exact List.reverse_perm _)

theorem diffStep_newleftmap (d : Int) (st : DiffState) (k : Nat) (r : stacktrace) :
    (diffStep d st k r).newleftmap = st.newleftmap.erase k := by
  unfold diffStep
  split
  · rfl
  · rename_i h
    apply AList.ext
    show st.newleftmap.entries = List.kerase k st.newleftmap.entries
    rw [List.kerase_of_not_mem_keys]
    exact AList.lookup_eq_none.1 h

theorem diffStep_same (d : Int) (st : DiffState) (k : Nat) (r : stacktrace) :
    (diffStep d st k r).same = st.same ++ (pairOf d st.newleftmap ⟨k, r⟩).toList := by
  unfold diffStep pairOf
  split
  · rename_i l h
    simp only [h]
    split <;> simp
  · rename_i h
    simp [h]

theorem diffStep_rightnotleft (d : Int) (st : DiffState) (k : Nat) (r : stacktrace) :
    (diffStep d st k r).rightnotleft =
      st.rightnotleft ++ (if k ∉ st.newleftmap.keys then [r] else []) := by
  unfold diffStep
  split
  · rename_i l h
    have hk : k ∈ st.newleftmap.keys := by
      have : (st.newleftmap.lookup k).isSome := by simp [h]
      exact AList.lookup_isSome.1 this
    simp [hk]
  · rename_i h
    have hk : k ∉ st.newleftmap.keys := AList.lookup_eq_none.1 h
    simp [hk]

theorem pairOf_erase (d : Int) (M : StackMap) (k : Nat) (e : (_ : Nat) × stacktrace)
    (h : e.1 ≠ k) : pairOf d (M.erase k) e = pairOf d M e := by
  unfold pairOf
  rw [AList.lookup_erase_ne h]

/-- The second loop of `diffFiles` over right entries `rs` with distinct keys, from any state:
what it appends to `same` and `rightnotleft` and what it leaves of the working copy. -/
theorem diffLoop_fold (d : Int) (rs : List ((_ : Nat) × stacktrace)) (nd : rs.NodupKeys)
    (st : DiffState) :
    (rs.foldl (fun st e => diffStep d st e.1 e.2) st).same =
        st.same ++ rs.filterMap (pairOf d st.newleftmap) ∧
      (rs.foldl (fun st e => diffStep d st e.1 e.2) st).rightnotleft =
        st.rightnotleft ++
          (rs.filter (fun e => decide (e.1 ∉ st.newleftmap.keys))).map (fun e => e.2) ∧
      (rs.foldl (fun st e => diffStep d st e.1 e.2) st).newleftmap.entries =
        st.newleftmap.entries.filter (fun e => decide (e.1 ∉ rs.keys)) := by
  induction rs generalizing st with
  | nil => simp
  | cons s rs ih =>
    obtain ⟨hs, ndr⟩ := List.nodupKeys_cons.1 nd
    obtain ⟨h1, h2, h3⟩ := ih ndr (diffStep d st s.1 s.2)
    have hne : ∀ e ∈ rs, e.1 ≠ s.1 := fun e he heq =>
      hs (heq ▸ List.mem_keys_of_mem he)
    rw [List.foldl_cons]
    refine ⟨?_, ?_, ?_⟩
    · rw [h1, diffStep_same, diffStep_newleftmap, List.append_assoc]
      congr 1
      have hfm : rs.filterMap (pairOf d (st.newleftmap.erase s.1)) =
          rs.filterMap (pairOf d st.newleftmap) := by
        apply List.filterMap_congr
        intro e he
        exact pairOf_erase d _ _ e (hne e he)
      rw [hfm, List.filterMap_cons]
      cases pairOf d st.newleftmap s <;> simp [*]
    · rw [h2, diffStep_rightnotleft, diffStep_newleftmap, List.append_assoc]
      congr 1
      have hf : rs.filter (fun e => decide (e.1 ∉ (st.newleftmap.erase s.1).keys)) =
          rs.filter (fun e => decide (e.1 ∉ st.newleftmap.keys)) := by
        apply List.filter_congr
        intro e he
        have := hne e he
        simp [AList.keys_erase, List.mem_erase_of_ne this]
      rw [hf]
      by_cases hk : s.1 ∈ st.newleftmap.keys
      · rw [List.filter_cons_of_neg (by simpa using hk)]
        simp [hk]
      · rw [List.filter_cons_of_pos (by simpa using hk)]
        simp [hk]
    · rw [h3, diffStep_newleftmap]
      show (List.kerase s.1 st.newleftmap.entries).filter _ = _
      rw [kerase_eq_filter _ _ st.newleftmap.nodupKeys, List.filter_filter]
      apply List.filter_congr
      intro e _
      simp only [List.keys_cons, List.mem_cons, not_or, ne_eq, Bool.decide_and,
        decide_not]
      rw [Bool.and_comm]

/-- The matched pairs collected by `diffFiles`, before sorting. -/
theorem diffLoop_same (L R : file) (d : Int) :
    (diffLoop L R d).same = R.Stacks.entries.filterMap (pairOf d L.Stacks) := by
  have h := (diffLoop_fold d R.Stacks.entries R.Stacks.nodupKeys
    { newleftmap := copyMap L.Stacks, same := [], rightnotleft := [] }).1
  unfold diffLoop
  rw [h, List.nil_append]
  apply List.filterMap_congr
  intro e _
  unfold pairOf
  rw [copyMap_lookup]

/-- The right-only records collected by `diffFiles`, before sorting. -/
theorem diffLoop_rightnotleft (L R : file) (d : Int) :
    (diffLoop L R d).rightnotleft = unmatched R.Stacks L.Stacks := by
  have h := (diffLoop_fold d R.Stacks.entries R.Stacks.nodupKeys
    { newleftmap := copyMap L.Stacks, same := [], rightnotleft := [] }).2.1
  unfold diffLoop unmatched
  rw [h, List.nil_append]
  congr 1
  apply List.filter_congr
  intro e _
  simp [copyMap_keys_mem]

/-- What is left of the working copy after the second loop of `diffFiles`. -/
theorem diffLoop_newleftmap (L R : file) (d : Int) :
    (diffLoop L R d).newleftmap.entries.map (fun e => e.2) =
      (unmatched L.Stacks R.Stacks).reverse := by
  have h := (diffLoop_fold d R.Stacks.entries R.Stacks.nodupKeys
    { newleftmap := copyMap L.Stacks, same := [], rightnotleft := [] }).2.2
  unfold diffLoop unmatched
  rw [h, copyMap_entries, ← List.map_reverse, ← List.filter_reverse]
  rfl

/-! ## Sorting -/

theorem sortByNum_perm (a : List stacktrace) : (sortByNum a).Perm a :=
  List.perm_insertionSort _ a

theorem sortSameByNum_perm (a : List sameStack) : (sortSameByNum a).Perm a :=
  List.perm_insertionSort _ a

theorem sortByNum_sorted (a : List stacktrace) :
    (sortByNum a).Sorted (fun x y => y.Length ≤ x.Length) :=
  List.sorted_insertionSort _ a

/-- Two sorted lists of the same records show the same sequence of counts. -/
theorem sortByNum_map_Num (a b : List stacktrace) (h : a.Perm b) :
    (sortByNum a).map (fun s => s.Num) = (sortByNum b).map (fun s => s.Num) := by
  have hp : ((sortByNum a).map (fun s => s.Num)).Perm ((sortByNum b).map (fun s => s.Num)) :=
    (((sortByNum_perm a).trans h).trans (sortByNum_perm b).symm).map _
  have hs : ∀ l : List stacktrace,
      ((sortByNum l).map (fun s => s.Num)).Sorted (fun x y : Int => y ≤ x) := by
    intro l
    have := sortByNum_sorted l
    unfold List.Sorted at this ⊢
    rw [List.pairwise_map]
    exact this
  haveI : IsAntisymm Int (fun x y : Int => y ≤ x) := ⟨fun _ _ h1 h2 => le_antisymm h2 h1⟩
  exact List.eq_of_perm_of_sorted hp (hs a) (hs b)

/-! ## Properties of `diffFiles` -/

theorem diffFiles_same (L R : file) (d : Int) :
    (diffFiles L R d).same =
      sortSameByNum (R.Stacks.entries.filterMap (pairOf d L.Stacks)) := by
  unfold diffFiles
  simp only [diffLoop_same]

theorem diffFiles_leftnotright (L R : file) (d : Int) :
    (diffFiles L R d).leftnotright = sortByNum (unmatched L.Stacks R.Stacks).reverse := by
  unfold diffFiles
  simp only [diffLoop_newleftmap]

theorem diffFiles_rightnotleft (L R : file) (d : Int) :
    (diffFiles L R d).rightnotleft = sortByNum (unmatched R.Stacks L.Stacks) := by
  unfold diffFiles
  simp only [diffLoop_rightnotleft]

theorem unmatched_self (M : StackMap) : unmatched M M = [] := by
  unfold unmatched
  rw [List.map_eq_nil_iff, List.filter_eq_nil_iff]
  intro e he
  simpa using List.mem_keys_of_mem he

theorem wrap64_zero : wrap64 0 = 0 := by decide

theorem pairOf_self (d : Int) (hd : 0 ≤ d) (M : StackMap) (e : (_ : Nat) × stacktrace)
    (he : e ∈ M.entries) : pairOf d M e = none := by
  have hl : M.lookup e.1 = some e.2 := AList.mem_lookup_iff.2 he
  unfold pairOf
  rw [hl]
  have h0 : abs (sub64 e.2.Num e.2.Num) = 0 := by
    simp [sub64, abs, wrap64_zero]
  simp only [h0]
  rw [if_neg (by omega)]

/-- Claim C2. Self-diff is empty: for every snapshot `A` and every diff threshold `d ≥ 0`,
`diffFiles(A, A, d)` returns an empty changed list, an empty left-only list and an empty
right-only list. -/
theorem diffFiles_self_empty (A : file) (d : Int) (hd : 0 ≤ d) :
    diffFiles A A d = { same := [], leftnotright := [], rightnotleft := [] } := by
  have hs : A.Stacks.entries.filterMap (pairOf d A.Stacks) = [] := by
    rw [List.filterMap_eq_nil_iff]
    intro e he
    exact pairOf_self d hd A.Stacks e he
  have h1 := diffFiles_same A A d
  have h2 := diffFiles_leftnotright A A d
  have h3 := diffFiles_rightnotleft A A d
  rw [hs] at h1
  rw [unmatched_self] at h2 h3
  cases hres : diffFiles A A d with
  | mk s l r =>
    rw [hres] at h1 h2 h3
    simp only at h1 h2 h3
    subst h1 h2 h3
    rfl

/-- Instance of `diffFiles_self_empty`: a snapshot of two records at threshold 0. -/
theorem diffFiles_self_empty_witness :
    (0 : Int) ≤ 0 ∧
      diffFiles exampleLeft exampleLeft 0 =
        { same := [], leftnotright := [], rightnotleft := [] } :=
  ⟨by decide, diffFiles_self_empty exampleLeft 0 (by decide)⟩

/-- Claim C3. Symmetry of the unmatched sets: for any snapshots `A`, `B` and any threshold, the
left-only list of `diffFiles(A, B)` and the right-only list of `diffFiles(B, A)` hold the same
records with the same multiplicities and show the same sequence of counts, so they differ at
most in the order of records of equal count; likewise for the right-only list of
`diffFiles(A, B)` and the left-only list of `diffFiles(B, A)`. -/
theorem diffFiles_unmatched_symm (A B : file) (d : Int) :
    ((diffFiles A B d).leftnotright.Perm (diffFiles B A d).rightnotleft ∧
      (diffFiles A B d).leftnotright.map (fun s => s.Num) =
        (diffFiles B A d).rightnotleft.map (fun s => s.Num)) ∧
    ((diffFiles A B d).rightnotleft.Perm (diffFiles B A d).leftnotright ∧
      (diffFiles A B d).rightnotleft.map (fun s => s.Num) =
        (diffFiles B A d).leftnotright.map (fun s => s.Num)) := by
  rw [diffFiles_leftnotright A B, diffFiles_rightnotleft B A, diffFiles_rightnotleft A B,
    diffFiles_leftnotright B A]
  have hA := List.reverse_perm (unmatched A.Stacks B.Stacks)
  have hB := List.reverse_perm (unmatched B.Stacks A.Stacks)
  refine ⟨⟨?_, sortByNum_map_Num _ _ hA⟩, ⟨?_, sortByNum_map_Num _ _ hB.symm⟩⟩
  · exact ((sortByNum_perm _).trans hA).trans (sortByNum_perm _).symm
  · exact ((sortByNum_perm _).trans hB.symm).trans (sortByNum_perm _).symm

/-- Claim C5. Exact classification of unmatched records: for any snapshots `L`, `R`, the
left-only list of `diffFiles(L, R)` is a rearrangement of the records of the entries of `L`
whose key is not a key of `R` (one list element per such entry), and the right-only list is a
rearrangement of the records of the entries of `R` whose key is not a key of `L`. -/
theorem diffFiles_unmatched_exact (L R : file) (d : Int) :
    (diffFiles L R d).leftnotright.Perm
        ((L.Stacks.entries.filter (fun e => decide (e.1 ∉ R.Stacks.keys))).map (fun e => e.2)) ∧
      (diffFiles L R d).rightnotleft.Perm
        ((R.Stacks.entries.filter (fun e => decide (e.1 ∉ L.Stacks.keys))).map (fun e => e.2)) := by
  rw [diffFiles_leftnotright, diffFiles_rightnotleft]
  exact ⟨(sortByNum_perm _).trans (List.reverse_perm _), sortByNum_perm _⟩

/-! ## The distance test of `diffFiles` -/

/-- Whenever the computed `abs(l - r)` exceeds an `int64` threshold, so does the true distance
of the two counts, whether or not the subtraction or the negation wraps. -/
theorem abs_sub64_gt (a b d : Int) (hd : isInt64 d) (h : abs (sub64 a b) > d) :
    d < |a - b| := by
  obtain ⟨hlo, hhi⟩ := hd
  simp only [minInt64, maxInt64] at hlo hhi
  rw [lt_abs]
  unfold abs sub64 wrap64 at h
  split at h <;> omega

/-- Claim C4. Soundness of changed: for any snapshots `L`, `R` and any `int64` threshold `d`,
every entry `e` of the changed list of `diffFiles(L, R, d)` comes from a key `k` present in both
maps, with `e.LeftNum = L[k].Num`, `e.RightNum = R[k].Num`, `e.Data = L[k].Data`, and the true
integer distance `|e.LeftNum - e.RightNum|` exceeds `d`. -/
theorem diffFiles_same_sound (L R : file) (d : Int) (hd : isInt64 d) (e : sameStack)
    (he : e ∈ (diffFiles L R d).same) :
    ∃ k l r, L.Stacks.lookup k = some l ∧ R.Stacks.lookup k = some r ∧
      e.LeftNum = l.Num ∧ e.RightNum = r.Num ∧ e.Data = l.Data ∧
      d < |e.LeftNum - e.RightNum| := by
  rw [diffFiles_same] at he
  have he2 := (sortSameByNum_perm _).mem_iff.1 he
  obtain ⟨x, hx, hpair⟩ := List.mem_filterMap.1 he2
  unfold pairOf at hpair
  split at hpair
  · rename_i l hl
    split at hpair
    · rename_i hgt
      have hr : R.Stacks.lookup x.1 = some x.2 := AList.mem_lookup_iff.2 hx
      refine ⟨x.1, l, x.2, hl, hr, ?_⟩
      simp only [Option.some.injEq] at hpair
      subst hpair
      exact ⟨rfl, rfl, rfl, abs_sub64_gt _ _ _ hd hgt⟩
    · exact absurd hpair (by simp)
  · exact absurd hpair (by simp)

/-- Instance of `diffFiles_same_sound`: the pair `12`/`20` at threshold 5. -/
theorem diffFiles_same_sound_witness :
    isInt64 5 ∧ (⟨12, 20, ascii "foo"⟩ : sameStack) ∈ (diffFiles exampleLeft exampleRight 5).same ∧
      ∃ k l r, exampleLeft.Stacks.lookup k = some l ∧ exampleRight.Stacks.lookup k = some r ∧
        (12 : Int) = l.Num ∧ (20 : Int) = r.Num ∧ ascii "foo" = l.Data ∧
        (5 : Int) < |(12 : Int) - 20| :=
  ⟨by decide, by decide,
    diffFiles_same_sound exampleLeft exampleRight 5 (by decide) ⟨12, 20, ascii "foo"⟩ (by decide)⟩

/-! ## The loop of `newFile` -/

/-- The loop of `newFile` completes exactly when every piece yields a record or is skipped;
the threshold and the map built so far play no part. -/
theorem newFileLoop_ok_iff (t : Int) (ps : List GoString) (m : StackMap) :
    (∃ m', newFileLoop t ps m = .ok m') ↔ ∀ v ∈ ps, ∃ o, pieceTrace v = .ok o := by
  induction ps generalizing m with
  | nil => simp [newFileLoop]
  | cons v ps ih =>
    unfold newFileLoop
    cases hv : pieceTrace v with
    | error e => simp [hv]
    | ok o =>
      cases o with
      | none => simp [hv, ih]
      | some s => simp [hv, ih]

/-- What a completed run of the loop of `newFile` leaves in the map: every entry is an old one
or a parsed record above the threshold stored under its own hash, and the keys are the old
ones together with the hashes of the parsed records above the threshold. -/
theorem newFileLoop_spec (t : Int) (ps : List GoString) (m m' : StackMap)
    (h : newFileLoop t ps m = .ok m') :
    (∀ e ∈ m'.entries, e ∈ m.entries ∨
      (e.2.Num > t ∧ e.1 = e.2.Sum ∧ ∃ v ∈ ps, pieceTrace v = .ok (some e.2))) ∧
    (∀ k, k ∈ m'.keys ↔ k ∈ m.keys ∨
      ∃ v ∈ ps, ∃ s, pieceTrace v = .ok (some s) ∧ s.Num > t ∧ s.Sum = k) := by
  induction ps generalizing m with
  | nil =>
    simp only [newFileLoop, Except.ok.injEq] at h
    subst h
    simp
  | cons v ps ih =>
    unfold newFileLoop at h
    cases hv : pieceTrace v with
    | error e => simp [hv] at h
    | ok o =>
      cases o with
      | none =>
        simp only [hv] at h
        obtain ⟨h1, h2⟩ := ih m h
        refine ⟨?_, ?_⟩
        · intro e he
          rcases h1 e he with h' | ⟨ha, hb, w, hw, hpw⟩
          · exact Or.inl h'
          · exact Or.inr ⟨ha, hb, w, List.mem_cons_of_mem _ hw, hpw⟩
        · intro k
          rw [h2 k]
          constructor
          · rintro (h' | ⟨w, hw, s, hs⟩)
            · exact Or.inl h'
            · exact Or.inr ⟨w, List.mem_cons_of_mem _ hw, s, hs⟩
          · rintro (h' | ⟨w, hw, s, hs, hn, hk⟩)
            · exact Or.inl h'
            · rcases List.mem_cons.1 hw with rfl | hw'
              · rw [hv] at hs
                simp at hs
              · exact Or.inr ⟨w, hw', s, hs, hn, hk⟩
      | some s =>
        simp only [hv] at h
        obtain ⟨h1, h2⟩ := ih _ h
        by_cases hgt : s.Num > t
        · simp only [hgt, if_true] at h1 h2
          refine ⟨?_, ?_⟩
          · intro e he
            rcases h1 e he with h' | ⟨ha, hb, w, hw, hpw⟩
            · rw [AList.insert_entries] at h'
              rcases List.mem_cons.1 h' with rfl | h2
              · exact Or.inr ⟨hgt, rfl, v, List.mem_cons_self _ _, hv⟩
              · exact Or.inl ((List.kerase_sublist _ _).subset h2)
            · exact Or.inr ⟨ha, hb, w, List.mem_cons_of_mem _ hw, hpw⟩
          · intro k
            rw [h2 k, ← AList.mem_keys, AList.mem_insert, AList.mem_keys]
            constructor
            · rintro ((rfl | h') | ⟨w, hw, s', hs⟩)
              · exact Or.inr ⟨v, List.mem_cons_self _ _, s, hv, hgt, rfl⟩
              · exact Or.inl h'
              · exact Or.inr ⟨w, List.mem_cons_of_mem _ hw, s', hs⟩
            · rintro (h' | ⟨w, hw, s', hs, hn, hk⟩)
              · exact Or.inl (Or.inr h')
              · rcases List.mem_cons.1 hw with rfl | hw'
                · rw [hv] at hs
                  simp only [Except.ok.injEq, Option.some.injEq] at hs
                  subst hs
                  exact Or.inl (Or.inl hk.symm)
                · exact Or.inr ⟨w, hw', s', hs, hn, hk⟩
        · simp only [hgt, if_false] at h1 h2
          refine ⟨?_, ?_⟩
          · intro e he
            rcases h1 e he with h' | ⟨ha, hb, w, hw, hpw⟩
            · exact Or.inl h'
            · exact Or.inr ⟨ha, hb, w, List.mem_cons_of_mem _ hw, hpw⟩
          · intro k
            rw [h2 k]
            constructor
            · rintro (h' | ⟨w, hw, s', hs⟩)
              · exact Or.inl h'
              · exact Or.inr ⟨w, List.mem_cons_of_mem _ hw, s', hs⟩
            · rintro (h' | ⟨w, hw, s', hs, hn, hk⟩)
              · exact Or.inl h'
              · rcases List.mem_cons.1 hw with rfl | hw'
                · rw [hv] at hs
                  simp only [Except.ok.injEq, Option.some.injEq] at hs
                  subst hs
                  exact absurd hn hgt
                · exact Or.inr ⟨w, hw', s', hs, hn, hk⟩

theorem newFile_ok (data : GoString) (t : Int) (f : file) (h : newFile data t = .ok f) :
    newFileLoop t (Split data sepBlank) ∅ = .ok f.Stacks := by
  unfold newFile at h
  cases hl : newFileLoop t (Split data sepBlank) ∅ with
  | error e => simp [hl, Except.map] at h
  | ok m =>
    simp only [hl, Except.map, Except.ok.injEq] at h
    subst h
    rfl

/-- Claim C7. Strict minimum-count filter: when `newFile` builds a snapshot from a dump text
with threshold `t`, every stored record has `Num > t`; a record parsed from a piece of the text
with `Num ≤ t` is not among the stored records, and the hash of a record parsed from a piece
with `Num > t` is a key of the snapshot. -/
theorem newFile_strict_filter (data : GoString) (t : Int) (f : file)
    (h : newFile data t = .ok f) :
    (∀ e ∈ f.Stacks.entries, e.2.Num > t) ∧
    (∀ v ∈ Split data sepBlank, ∀ s, pieceTrace v = .ok (some s) →
      (s.Num ≤ t → ∀ e ∈ f.Stacks.entries, e.2 ≠ s) ∧
      (s.Num > t → s.Sum ∈ f.Stacks.keys)) := by
  obtain ⟨h1, h2⟩ := newFileLoop_spec t _ _ _ (newFile_ok data t f h)
  have hall : ∀ e ∈ f.Stacks.entries, e.2.Num > t := by
    intro e he
    rcases h1 e he with h' | ⟨ha, -⟩
    · simp at h'
    · exact ha
  refine ⟨hall, ?_⟩
  intro v hv s hs
  refine ⟨?_, ?_⟩
  · intro hle e he heq
    have := hall e he
    rw [heq] at this
    omega
  · intro hgt
    exact (h2 s.Sum).2 (Or.inr ⟨v, hv, s, hs, hgt, rfl⟩)

/-- Instance of `newFile_strict_filter`: counts 12, 10 and 3 at threshold 10. -/
theorem newFile_strict_filter_witness :
    newFile (ascii "12 @ foo\n\n10 @ bar\n\n3 @ baz") 10 =
        .ok ⟨(∅ : StackMap).insert (fnv32a (ascii "foo")) ⟨12, ascii "foo", fnv32a (ascii "foo")⟩⟩ ∧
    ((∀ e ∈ ((∅ : StackMap).insert (fnv32a (ascii "foo"))
          ⟨12, ascii "foo", fnv32a (ascii "foo")⟩).entries, e.2.Num > 10) ∧
    (∀ v ∈ Split (ascii "12 @ foo\n\n10 @ bar\n\n3 @ baz") sepBlank, ∀ s,
      pieceTrace v = .ok (some s) →
      (s.Num ≤ 10 → ∀ e ∈ ((∅ : StackMap).insert (fnv32a (ascii "foo"))
          ⟨12, ascii "foo", fnv32a (ascii "foo")⟩).entries, e.2 ≠ s) ∧
      (s.Num > 10 → s.Sum ∈ ((∅ : StackMap).insert (fnv32a (ascii "foo"))
          ⟨12, ascii "foo", fnv32a (ascii "foo")⟩).keys))) :=
  ⟨by decide, newFile_strict_filter _ 10 _ (by decide)⟩

/-- Claim C8. Monotonic filtering: when `newFile` builds a snapshot from a dump text with
threshold `t1`, it also builds one with every threshold `t2 ≥ t1`, and that one has no more
entries. -/
theorem newFile_monotone (data : GoString) (t1 t2 : Int) (f1 : file) (h12 : t1 ≤ t2)
    (h1 : newFile data t1 = .ok f1) :
    ∃ f2, newFile data t2 = .ok f2 ∧
      f2.Stacks.entries.length ≤ f1.Stacks.entries.length := by
  have hl1 := newFile_ok data t1 f1 h1
  have hok := (newFileLoop_ok_iff t1 (Split data sepBlank) ∅).1 ⟨_, hl1⟩
  obtain ⟨m2, hl2⟩ := (newFileLoop_ok_iff t2 (Split data sepBlank) ∅).2 hok
  refine ⟨⟨m2⟩, ?_, ?_⟩
  · simp [newFile, hl2, Except.map]
  · have k1 := (newFileLoop_spec t1 _ _ _ hl1).2
    have k2 := (newFileLoop_spec t2 _ _ _ hl2).2
    have hsub : m2.keys ⊆ f1.Stacks.keys := by
      intro k hk
      rcases (k2 k).1 hk with h' | ⟨v, hv, s, hs, hn, hk'⟩
      · simp at h'
      · exact (k1 k).2 (Or.inr ⟨v, hv, s, hs, by omega, hk'⟩)
    have hlen : m2.keys.length ≤ f1.Stacks.keys.length :=
      (List.subperm_of_subset m2.keys_nodup hsub).length_le
    simpa [AList.keys, List.keys] using hlen

/-- Instance of `newFile_monotone`: two records of one body and one other, thresholds 2 and 11. -/
theorem newFile_monotone_witness :
    (2 : Int) ≤ 11 ∧
      ∃ f2, newFile (ascii "12 @ foo\n\n10 @ bar\n\n3 @ foo") 11 = .ok f2 ∧
        f2.Stacks.entries.length ≤
          (((∅ : StackMap).insert (fnv32a (ascii "foo")) ⟨12, ascii "foo", fnv32a (ascii "foo")⟩
            |>.insert (fnv32a (ascii "bar")) ⟨10, ascii "bar", fnv32a (ascii "bar")⟩
            |>.insert (fnv32a (ascii "foo")) ⟨3, ascii "foo", fnv32a (ascii "foo")⟩)).entries.length :=
  ⟨by decide, newFile_monotone _ 2 11 ⟨_⟩ (by decide) (by decide)⟩

/-! ## Count tokens -/

theorem parseDigits_eq (ds : GoString) (acc : Nat) :
    parseDigits ds acc =
      if ds.all isDigit then some (ds.foldl (fun a c => a * 10 + (c.val - 48)) acc) else none := by
  induction ds generalizing acc with
  | nil => rfl
  | cons c cs ih =>
    unfold parseDigits
    by_cases hc : isDigit c = true
    · simp only [hc, if_true, List.all_cons, Bool.true_and, List.foldl_cons]
      exact ih _
    · simp [hc]

theorem ParseUint_eq (s : GoString) :
    ParseUint s = if !s.isEmpty && s.all isDigit then some (decimalValue s) else none := by
  cases s with
  | nil => rfl
  | cons c cs =>
    simp only [ParseUint, parseDigits_eq, decimalValue, List.isEmpty_cons, Bool.not_false,
      Bool.true_and]

/-- The count parser accepts exactly the valid tokens. -/
theorem ParseInt_isSome (tok : GoString) : (ParseInt tok).isSome = validCount tok := by
  cases tok with
  | nil => rfl
  | cons c rest =>
    unfold ParseInt validCount
    by_cases h45 : c = 45
    · subst h45
      simp only [or_true, if_true, ParseUint_eq, decide_True]
      by_cases hd : (!rest.isEmpty && rest.all isDigit) = true
      · simp only [hd, if_true, Bool.true_and, Bool.not_true, Bool.false_and]
        by_cases hr : 9223372036854775808 < decimalValue rest
        · simp [hr]
        · simp [hr]; omega
      · simp only [Bool.not_eq_true] at hd
        simp [hd]
    · by_cases h43 : c = 43
      · subst h43
        simp only [true_or, if_true, ParseUint_eq, h45, if_false, decide_False]
        by_cases hd : (!rest.isEmpty && rest.all isDigit) = true
        · simp only [hd, if_true, Bool.true_and, Bool.not_false, Bool.false_and]
          by_cases hr : 9223372036854775808 ≤ decimalValue rest
          · simp [hr]
          · simp [hr]; omega
        · simp only [Bool.not_eq_true] at hd
          simp [hd]
      · simp only [h45, h43, or_self, if_false, ParseUint_eq, decide_False, List.isEmpty_cons,
          Bool.not_false, Bool.true_and, Bool.false_and]
        by_cases hd : (c :: rest).all isDigit = true
        · simp only [hd, if_true, Bool.true_and]
          by_cases hr : 9223372036854775808 ≤ decimalValue (c :: rest)
          · simp [hr]
          · simp [hr]; omega
        · simp only [Bool.not_eq_true] at hd
          simp [hd]

/-! ## Records and pieces -/

theorem SplitN2_of_index (w sep : GoString) (m : Nat) (h : Index w sep = some m) :
    SplitN2 w sep = [w.take m, w.drop (m + sep.length)] := by
  simp [SplitN2, genSplit, h]

theorem SplitN2_of_no_index (w sep : GoString) (h : Index w sep = none) :
    SplitN2 w sep = [w] := by
  simp [SplitN2, genSplit, h]

/-- A text with `" @ "` at index `m` first: the count is parsed from the text before it. -/
theorem newStackTrace_of_index (w : GoString) (m : Nat) (h : Index w sepAt = some m) :
    newStackTrace w =
      match ParseInt (w.take m) with
      | none => .error (.invalidInteger (w.take m))
      | some n => .ok { Num := n, Data := w.drop (m + 3), Sum := fnv32a (w.drop (m + 3)) } := by
  unfold newStackTrace
  rw [SplitN2_of_index w sepAt m h]
  cases hp : ParseInt (w.take m) <;> simp [hp, sepAt]

/-- A text without `" @ "` fails on the index `pieces[1]`. -/
theorem newStackTrace_of_no_index (w : GoString) (h : Index w sepAt = none) :
    newStackTrace w = .error .indexOutOfRange := by
  unfold newStackTrace
  rw [SplitN2_of_no_index w sepAt h]
  rfl

/-- A non-empty piece that has a record text is parsed from that text. -/
theorem pieceTrace_of_recordText (v w : GoString) (hne : v ≠ []) (h : recordText v = some w) :
    pieceTrace v = (newStackTrace w).map some := by
  unfold recordText at h
  unfold pieceTrace
  have hlen : ¬ v.length < 1 := by
    cases v with
    | nil => exact absurd rfl hne
    | cons c cs => simp
  by_cases hp : HasPrefix v goroutineLabel = true
  · simp only [hp, if_true, Option.map_eq_some'] at h
    obtain ⟨m, hm, rfl⟩ := h
    simp only [hp, Bool.true_or, if_true, hlen, if_false, SplitN2_of_index v sepLine m hm]
    rfl
  · simp only [Bool.not_eq_true] at hp
    simp only [hp, Bool.false_eq_true, if_false, Option.some.injEq] at h
    subst h
    simp [hp, hne]

theorem newFile_error_of_piece (data : GoString) (t : Int) (v : GoString)
    (hv : v ∈ Split data sepBlank) (e : Panic) (he : pieceTrace v = .error e) :
    ∃ e', newFile data t = .error e' := by
  cases hf : newFile data t with
  | error e' => exact ⟨e', rfl⟩
  | ok f =>
    have hok := (newFileLoop_ok_iff t (Split data sepBlank) ∅).1 ⟨_, newFile_ok data t f hf⟩
    obtain ⟨o, ho⟩ := hok v hv
    rw [he] at ho
    simp at ho

/-- Claim C9. Malformed count is fatal: for a record text `w` with leading token `tok` (the text
before its first `" @ "`), `newStackTrace w` fails exactly when `tok` is not a valid base-10
signed 64-bit integer, and then with the invalid-integer failure; and every dump text that has
a piece with such a record text makes `newFile` fail, whatever the threshold. -/
theorem newFile_malformed_count_fatal (w tok : GoString) (htok : leadingToken w = some tok) :
    ((∃ e, newStackTrace w = .error e) ↔ validCount tok = false) ∧
    (validCount tok = false → newStackTrace w = .error (.invalidInteger tok)) ∧
    (validCount tok = false → ∀ data t v, v ∈ Split data sepBlank → recordText v = some w →
      ∃ e, newFile data t = .error e) := by
  unfold leadingToken at htok
  simp only [Option.map_eq_some'] at htok
  obtain ⟨m, hm, rfl⟩ := htok
  have hnst := newStackTrace_of_index w m hm
  have hval := ParseInt_isSome (w.take m)
  have hbad : validCount (w.take m) = false →
      newStackTrace w = .error (.invalidInteger (w.take m)) := by
    intro hv
    rw [hv] at hval
    cases hp : ParseInt (w.take m) with
    | none => rw [hnst, hp]
    | some n => rw [hp] at hval; simp at hval
  refine ⟨⟨?_, fun hv => ⟨_, hbad hv⟩⟩, hbad, ?_⟩
  · rintro ⟨e, he⟩
    cases hp : ParseInt (w.take m) with
    | none => rw [hp] at hval; simpa using hval.symm
    | some n => rw [hnst, hp] at he; simp at he
  · intro hv data t v hvmem hrec
    have hvne : v ≠ [] := by
      rintro rfl
      have : w = [] := by
        simpa [recordText, HasPrefix, goroutineLabel] using hrec.symm
      subst this
      simp [Index, sepAt] at hm
    have hpt : pieceTrace v = .error (.invalidInteger (w.take m)) := by
      rw [pieceTrace_of_recordText v w hvne hrec, hbad hv]
      rfl
    exact newFile_error_of_piece data t v hvmem _ hpt

/-- Instance of `newFile_malformed_count_fatal`: the record text `"1x @ foo"`. -/
theorem newFile_malformed_count_fatal_witness :
    leadingToken (ascii "1x @ foo") = some (ascii "1x") ∧
    (((∃ e, newStackTrace (ascii "1x @ foo") = .error e) ↔ validCount (ascii "1x") = false) ∧
    (validCount (ascii "1x") = false →
      newStackTrace (ascii "1x @ foo") = .error (.invalidInteger (ascii "1x"))) ∧
    (validCount (ascii "1x") = false → ∀ data t v, v ∈ Split data sepBlank →
      recordText v = some (ascii "1x @ foo") → ∃ e, newFile data t = .error e)) :=
  ⟨by decide, newFile_malformed_count_fatal (ascii "1x @ foo") (ascii "1x") (by decide)⟩

/-! ## Empty and blank pieces -/

/-- The empty piece is skipped. -/
theorem pieceTrace_nil : pieceTrace [] = .ok none := by decide

theorem newFileLoop_cons (t : Int) (v : GoString) (ps : List GoString) (m : StackMap) :
    newFileLoop t (v :: ps) m =
      match pieceTrace v with
      | .error e => .error e
      | .ok none => newFileLoop t ps m
      | .ok (some trace) =>
        newFileLoop t ps (if trace.Num > t then m.insert trace.Sum trace else m) := rfl

/-- The loop of `newFile` runs as if the empty pieces were not there. -/
theorem newFileLoop_filter_nil (t : Int) (ps : List GoString) (m : StackMap) :
    newFileLoop t ps m = newFileLoop t (ps.filter (fun v => decide (v ≠ []))) m := by
  induction ps generalizing m with
  | nil => rfl
  | cons v ps ih =>
    by_cases hv : v = []
    · subst hv
      rw [List.filter_cons_of_neg (by simp), newFileLoop_cons, pieceTrace_nil]
      exact ih m
    · rw [List.filter_cons_of_pos (by simpa using hv), newFileLoop_cons, newFileLoop_cons]
      cases pieceTrace v with
      | error e => rfl
      | ok o =>
        cases o with
        | none => exact ih m
        | some s => exact ih _

/-- Claim C10, as stated, fails: the pieces `" "` and `"\n"` are empty after trimming white
space, yet each of them makes `newFile` fail with an index out of range. -/
theorem newFile_blank_piece_fails :
    (isBlank (ascii " ") = true ∧ ascii " " ∈ Split (ascii "12 @ foo\n\n ") sepBlank ∧
      pieceTrace (ascii " ") = .error .indexOutOfRange ∧
      newFile (ascii "12 @ foo\n\n ") 10 = .error .indexOutOfRange) ∧
    (isBlank (ascii "\n") = true ∧ ascii "\n" ∈ Split (ascii "12 @ foo\n\n\n") sepBlank ∧
      pieceTrace (ascii "\n") = .error .indexOutOfRange ∧
      newFile (ascii "12 @ foo\n\n\n") 10 = .error .indexOutOfRange) := by
  decide

/-- Claim C10, amended. Empty pieces are skipped: for every dump text and threshold, the empty
piece yields no record and no failure, and `newFile` gives the result of its loop over the
non-empty pieces alone. -/
theorem newFile_skips_empty_pieces (data : GoString) (t : Int) :
    pieceTrace [] = .ok none ∧
      newFile data t =
        (newFileLoop t ((Split data sepBlank).filter (fun v => decide (v ≠ []))) ∅).map
          file.mk := by
  refine ⟨pieceTrace_nil, ?_⟩
  unfold newFile
  rw [← newFileLoop_filter_nil]

/-! ## Completeness of the changed list -/

/-- Claim C6 at a failing input: the dumps `"9223372036854775807 @ foo"` and `"-1 @ foo"`, read
with threshold `-2`, share the key of body `foo`, their counts differ by `2^63 > 5`, and the
changed list of `diffFiles` at threshold 5 is empty: the `int64` subtraction and negation wrap. -/
theorem diffFiles_same_misses_overflow :
    newFile (ascii "9223372036854775807 @ foo") (-2) = .ok overflowLeft ∧
    newFile (ascii "-1 @ foo") (-2) = .ok overflowRight ∧
    overflowLeft.Stacks.lookup (fnv32a (ascii "foo")) =
      some ⟨9223372036854775807, ascii "foo", fnv32a (ascii "foo")⟩ ∧
    overflowRight.Stacks.lookup (fnv32a (ascii "foo")) =
      some ⟨-1, ascii "foo", fnv32a (ascii "foo")⟩ ∧
    (5 : Int) < |(9223372036854775807 : Int) - (-1)| ∧
    abs (sub64 9223372036854775807 (-1)) = -9223372036854775808 ∧
    (diffFiles overflowLeft overflowRight 5).same = [] := by
  refine ⟨by decide, by decide, by decide, by decide, by norm_num, by decide, by decide⟩

/-- Away from overflow the changed list is complete: a key present in both snapshots whose
counts differ by more than `d`, the difference being representable and not the smallest
`int64`, is reported with the counts and the left body. -/
theorem diffFiles_same_complete_of_no_wrap (L R : file) (d : Int) (k : Nat) (l r : stacktrace)
    (hl : L.Stacks.lookup k = some l) (hr : R.Stacks.lookup k = some r)
    (hlo : minInt64 < l.Num - r.Num) (hhi : l.Num - r.Num ≤ maxInt64)
    (hd : d < |l.Num - r.Num|) :
    ({ LeftNum := l.Num, RightNum := r.Num, Data := l.Data } : sameStack) ∈
      (diffFiles L R d).same := by
  rw [diffFiles_same, (sortSameByNum_perm _).mem_iff, List.mem_filterMap]
  refine ⟨⟨k, r⟩, AList.mem_lookup_iff.1 hr, ?_⟩
  have habs : abs (sub64 l.Num r.Num) > d := by
    simp only [minInt64, maxInt64] at hlo hhi
    rw [lt_abs] at hd
    unfold abs sub64 wrap64
    split <;> omega
  simp only [pairOf, hl, habs, if_true]


/-! ## Checks of the model: cut bound and iteration order -/

theorem Index_bound (s sep : GoString) (m : Nat) (h : Index s sep = some m) :
    m + sep.length ≤ s.length := by
  induction s generalizing m with
  | nil =>
    unfold Index at h
    split at h
    · rename_i hs
      simp only [Option.some.injEq] at h
      subst h hs
      simp
    · simp at h
  | cons c cs ih =>
    unfold Index at h
    split at h
    · rename_i hp
      simp only [Option.some.injEq] at h
      subst h
      have : sep <+: c :: cs := List.isPrefixOf_iff_prefix.1 hp
      simpa using this.length_le
    · simp only [Option.map_eq_some'] at h
      obtain ⟨k, hk, rfl⟩ := h
      have := ih k hk
      simp only [List.length_cons]
      omega

/-- The bound on the number of cuts in `Split` is never the reason the loop stops: any bound
of at least `len(s)` gives the same pieces. -/
theorem genSplit_stable (sep : GoString) (hsep : sep ≠ []) (n k : Nat) (s : GoString)
    (hn : s.length ≤ n) (hk : s.length ≤ k) : genSplit sep n s = genSplit sep k s := by
  have hnil : ∀ j, genSplit sep j [] = [[]] := by
    intro j
    cases j with
    | zero => rfl
    | succ j => simp [genSplit, Index, hsep]
  have hpos : 0 < sep.length := List.length_pos.2 hsep
  induction n generalizing k s with
  | zero =>
    have hs : s = [] := List.length_eq_zero.1 (Nat.le_zero.1 hn)
    subst hs
    rw [hnil, hnil]
  | succ n ih =>
    cases k with
    | zero =>
      have hs : s = [] := List.length_eq_zero.1 (Nat.le_zero.1 hk)
      subst hs
      rw [hnil, hnil]
    | succ k =>
      unfold genSplit
      cases hi : Index s sep with
      | none => rfl
      | some m =>
        have hb := Index_bound s sep m hi
        have hd : (s.drop (m + sep.length)).length = s.length - (m + sep.length) :=
          List.length_drop _ _
        simp only
        rw [ih k (s.drop (m + sep.length)) (by omega) (by omega)]

/-- The results of `diffFiles` do not depend on the iteration order of the two maps, up to the
order inside each list. -/
theorem diffFiles_perm (L L2 R R2 : file) (d : Int)
    (hL : L.Stacks.entries.Perm L2.Stacks.entries)
    (hR : R.Stacks.entries.Perm R2.Stacks.entries) :
    (diffFiles L R d).same.Perm (diffFiles L2 R2 d).same ∧
      (diffFiles L R d).leftnotright.Perm (diffFiles L2 R2 d).leftnotright ∧
      (diffFiles L R d).rightnotleft.Perm (diffFiles L2 R2 d).rightnotleft := by
  have hkeys : ∀ (M M2 : StackMap), M.entries.Perm M2.entries → ∀ k, k ∈ M.keys ↔ k ∈ M2.keys :=
    fun M M2 h k => by
      rw [← AList.mem_keys, ← AList.mem_keys]
      exact AList.mem_of_perm h
  have hun : ∀ (M M2 N N2 : StackMap), M.entries.Perm M2.entries → N.entries.Perm N2.entries →
      (unmatched M N).Perm (unmatched M2 N2) := by
    intro M M2 N N2 hM hN
    unfold unmatched
    have hf : (fun e : (_ : Nat) × stacktrace => decide (e.1 ∉ N.keys)) =
        (fun e => decide (e.1 ∉ N2.keys)) := by
      funext e
      simp [hkeys N N2 hN e.1]
    rw [hf]
    exact (hM.filter _).map _
  have hpair : pairOf d L.Stacks = pairOf d L2.Stacks := by
    funext e
    unfold pairOf
    rw [AList.perm_lookup hL]
  refine ⟨?_, ?_, ?_⟩
  · rw [diffFiles_same, diffFiles_same, hpair]
    exact ((sortSameByNum_perm _).trans (hR.filterMap _)).trans (sortSameByNum_perm _).symm
  · rw [diffFiles_leftnotright, diffFiles_leftnotright]
    exact ((sortByNum_perm _).trans
      (((List.reverse_perm _).trans (hun _ _ _ _ hL hR)).trans (List.reverse_perm _).symm)).trans
      (sortByNum_perm _).symm
  · rw [diffFiles_rightnotleft, diffFiles_rightnotleft]
    exact ((sortByNum_perm _).trans (hun _ _ _ _ hR hL)).trans (sortByNum_perm _).symm

/-! ## The empty dump -/

/-- Claim C11. Empty dump: for every threshold, `newFile` on the empty text succeeds and
yields a snapshot with no entries. -/
theorem newFile_empty_dump (t : Int) :
    newFile [] t = .ok ⟨∅⟩ ∧ (∅ : StackMap).entries = [] := by
  refine ⟨?_, rfl⟩
  have hs : Split [] sepBlank = [[]] := rfl
  unfold newFile
  rw [hs, newFileLoop_cons, pieceTrace_nil]
  rfl

/-! ## Ranking -/

theorem sortSameByNum_sorted (a : List sameStack) :
    (sortSameByNum a).Sorted (fun x y => y.Length ≤ x.Length) :=
  List.sorted_insertionSort _ a

/-- The severity of a pair is the larger of its two counts. -/
theorem sameStack_Length_eq_max (s : sameStack) : s.Length = max s.LeftNum s.RightNum := by
  unfold sameStack.Length
  split
  · rw [max_eq_left (by omega)]
  · rw [max_eq_right (by omega)]

/-- Claim C14. Ranking: for any snapshots and threshold, each of the three lists returned by
`diffFiles` is in order of non-increasing severity (every earlier entry has a severity at least
that of every later one), the severity of a changed entry being `max(LeftNum, RightNum)` and that
of a left-only or right-only record its `Num`; and each list is a rearrangement of what the
loops collected. -/
theorem diffFiles_ranked (L R : file) (d : Int) :
    ((diffFiles L R d).same.Pairwise
        (fun x y => max y.LeftNum y.RightNum ≤ max x.LeftNum x.RightNum) ∧
      (diffFiles L R d).leftnotright.Pairwise (fun x y => y.Num ≤ x.Num) ∧
      (diffFiles L R d).rightnotleft.Pairwise (fun x y => y.Num ≤ x.Num)) ∧
    ((diffFiles L R d).same.Perm (diffLoop L R d).same ∧
      (diffFiles L R d).leftnotright.Perm
        ((diffLoop L R d).newleftmap.entries.map (fun e => e.2)) ∧
      (diffFiles L R d).rightnotleft.Perm (diffLoop L R d).rightnotleft) ∧
    (∀ s : sameStack, s.Length = max s.LeftNum s.RightNum) := by
  refine ⟨⟨?_, ?_, ?_⟩, ⟨?_, ?_, ?_⟩, sameStack_Length_eq_max⟩
  · have h := sortSameByNum_sorted (diffLoop L R d).same
    simpa only [sameStack_Length_eq_max] using h
  · exact sortByNum_sorted _
  · exact sortByNum_sorted _
  · exact sortSameByNum_perm _
  · exact sortByNum_perm _
  · exact sortByNum_perm _

/-! ## The scenario of two dumps -/

/-- Claim C16. End-to-end scenario: with `over = 10` and `diff = 5`, the snapshots of the left
dump `"12 @ foo\n\n3 @ bar"` and of the right dump `"20 @ foo\n\n15 @ baz"` give, through
`diffFiles`, changed `[{12, 20, "foo"}]`, no left-only record and the right-only record
`{15, "baz"}`. -/
theorem diffFiles_scenario :
    newFile (ascii "12 @ foo\n\n3 @ bar") 10 = .ok scenarioLeft ∧
    newFile (ascii "20 @ foo\n\n15 @ baz") 10 = .ok scenarioRight ∧
    diffFiles scenarioLeft scenarioRight 5 =
      { same := [{ LeftNum := 12, RightNum := 20, Data := ascii "foo" }]
        leftnotright := []
        rightnotleft := [{ Num := 15, Data := ascii "baz", Sum := fnv32a (ascii "baz") }] } := by
  refine ⟨by decide, by decide, by decide⟩

/-! ## Identical snapshots -/

theorem pairOf_self_eq (d : Int) (M : StackMap) (e : (_ : Nat) × stacktrace)
    (he : e ∈ M.entries) (p : sameStack) (hp : pairOf d M e = some p) :
    p.LeftNum = p.RightNum := by
  have hl : M.lookup e.1 = some e.2 := AList.mem_lookup_iff.2 he
  unfold pairOf at hp
  rw [hl] at hp
  simp only at hp
  split at hp
  · simp only [Option.some.injEq] at hp
    subst hp
    rfl
  · exact absurd hp (by simp)

theorem printedSame_of_equal (l : List sameStack) (h : ∀ e ∈ l, e.LeftNum = e.RightNum) :
    printedSame true l = [] := by
  induction l with
  | nil => rfl
  | cons v rest ih =>
    unfold printedSame
    rw [if_pos ⟨h v (List.mem_cons_self _ _), rfl⟩]
    exact ih (fun e he => h e (List.mem_cons_of_mem _ he))

/-- Claim C19. Identical dumps print no changed line: for every snapshot `A` and every diff
threshold `d`, negative ones included, every entry of the changed list of `diffFiles(A, A, d)`
has `LeftNum = RightNum`, and with `omitidentical = true` the printing loop of `main` prints
nothing for the changed list. -/
theorem diffFiles_self_prints_nothing (A : file) (d : Int) :
    (∀ e ∈ (diffFiles A A d).same, e.LeftNum = e.RightNum) ∧
      printedSame true (diffFiles A A d).same = [] := by
  have h : ∀ e ∈ (diffFiles A A d).same, e.LeftNum = e.RightNum := by
    intro e he
    rw [diffFiles_same] at he
    have he2 := (sortSameByNum_perm _).mem_iff.1 he
    obtain ⟨x, hx, hp⟩ := List.mem_filterMap.1 he2
    exact pairOf_self_eq d A.Stacks x hx e hp
  exact ⟨h, printedSame_of_equal _ h⟩

/-- With a negative threshold the changed list of a self-diff is not empty, and it is printed
when `omitidentical` is off. -/
theorem printedSame_sample :
    (diffFiles exampleLeft exampleLeft (-1)).same =
        [⟨12, 12, ascii "foo"⟩, ⟨3, 3, ascii "bar"⟩] ∧
      printedSame true (diffFiles exampleLeft exampleLeft (-1)).same = [] ∧
      printedSame false (diffFiles exampleLeft exampleLeft (-1)).same =
        [ascii "Left: 12 Right: 12 @ foo", ascii "Left: 3 Right: 3 @ bar"] := by
  refine ⟨by decide, by decide, by decide⟩

/-! ## Valid count tokens in front of a body -/

/-- On a valid token the count parser returns the integer the token writes. -/
theorem ParseInt_of_valid (tok : GoString) (h : validCount tok = true) :
    ParseInt tok = some (countValue tok) := by
  cases tok with
  | nil => simp [validCount] at h
  | cons c rest =>
    unfold validCount at h
    unfold ParseInt countValue
    by_cases h45 : c = 45
    · subst h45
      simp only [if_true, Bool.and_eq_true, decide_eq_true_eq] at h
      obtain ⟨⟨h1, h2⟩, h3⟩ := h
      have hd : (!rest.isEmpty && rest.all isDigit) = true := by simp [h1, h2]
      simp only [or_true, if_true, ParseUint_eq, hd, decide_True]
      have : ¬ (9223372036854775808 < decimalValue rest) := by omega
      simp [this]
    · by_cases h43 : c = 43
      · subst h43
        simp only [h45, if_false, if_true, Bool.and_eq_true, decide_eq_true_eq] at h
        obtain ⟨⟨h1, h2⟩, h3⟩ := h
        have hd : (!rest.isEmpty && rest.all isDigit) = true := by simp [h1, h2]
        simp only [true_or, if_true, ParseUint_eq, hd, h45, decide_False, if_false]
        have : ¬ (9223372036854775808 ≤ decimalValue rest) := by omega
        simp [this]
      · simp only [h45, h43, if_false, Bool.and_eq_true, decide_eq_true_eq] at h
        obtain ⟨h1, h3⟩ := h
        simp only [h45, h43, or_self, if_false, ParseUint_eq, decide_False, List.isEmpty_cons,
          Bool.not_false, Bool.true_and, h1, if_true]
        have : ¬ (9223372036854775808 ≤ decimalValue (c :: rest)) := by omega
        simp [this]

/-- A valid token is not empty and holds only signs and digits. -/
theorem validCount_chars (tok : GoString) (h : validCount tok = true) :
    tok ≠ [] ∧ ∀ x ∈ tok, x = 45 ∨ x = 43 ∨ isDigit x = true := by
  cases tok with
  | nil => simp [validCount] at h
  | cons c rest =>
    refine ⟨by simp, ?_⟩
    unfold validCount at h
    by_cases h45 : c = 45
    · simp only [h45, if_true, Bool.and_eq_true, List.all_eq_true] at h
      intro x hx
      rcases List.mem_cons.1 hx with rfl | hx
      · exact Or.inl h45
      · exact Or.inr (Or.inr (h.1.2 x hx))
    · by_cases h43 : c = 43
      · subst h43
        simp only [h45, if_false, if_true, Bool.and_eq_true, List.all_eq_true] at h
        intro x hx
        rcases List.mem_cons.1 hx with rfl | hx
        · exact Or.inr (Or.inl rfl)
        · exact Or.inr (Or.inr (h.1.2 x hx))
      · simp only [h45, h43, if_false, Bool.and_eq_true, List.all_eq_true] at h
        intro x hx
        exact Or.inr (Or.inr (h.1 x hx))

theorem validCount_ne (tok : GoString) (h : validCount tok = true) :
    ∀ x ∈ tok, x ≠ 32 ∧ x ≠ 10 ∧ x ≠ 103 := by
  intro x hx
  rcases (validCount_chars tok h).2 x hx with rfl | rfl | hd
  · decide
  · decide
  · simp only [isDigit, Bool.and_eq_true, decide_eq_true_eq] at hd
    refine ⟨?_, ?_, ?_⟩ <;> rintro rfl <;> exact absurd hd (by decide)

/-- A valid token, the delimiter and any body: the record has the count of the token, the body
as it stands, and the hash of the body. -/
theorem newStackTrace_valid (c b : GoString) (hc : validCount c = true) :
    newStackTrace (c ++ sepAt ++ b) =
      .ok { Num := countValue c, Data := b, Sum := fnv32a b } := by
  have hsplit : SplitN2 (c ++ sepAt ++ b) sepAt = [c, b] :=
    SplitN2_append_sep c b 32 [64, 32] (fun x hx => (validCount_ne c hc x hx).1)
  simp only [newStackTrace, hsplit, List.headD_cons, ParseInt_of_valid c hc]
  rfl

/-- Claim C12. Fingerprint depends on the body only: for every body `b` and all valid count
tokens `c1`, `c2`, `newStackTrace` succeeds on `c1 + " @ " + b` and on `c2 + " @ " + b` with the
same `Sum`, which is the 32-bit FNV-1a hash of the bytes of `b`: start `2166136261`, per byte
xor then multiply by `16777619` modulo `2^32`. -/
theorem newStackTrace_Sum_body_only (b c1 c2 : GoString) (h1 : validCount c1 = true)
    (h2 : validCount c2 = true) :
    ∃ s1 s2, newStackTrace (c1 ++ sepAt ++ b) = .ok s1 ∧
      newStackTrace (c2 ++ sepAt ++ b) = .ok s2 ∧ s1.Sum = s2.Sum ∧
      s1.Sum = b.foldl (fun h x => ((h ^^^ x.val) * 16777619) % 2 ^ 32) 2166136261 :=
  ⟨_, _, newStackTrace_valid c1 b h1, newStackTrace_valid c2 b h2, rfl, rfl⟩

/-- Instance of `newStackTrace_Sum_body_only`: the counts `7` and `-12` before a body of two
lines. -/
theorem newStackTrace_Sum_body_only_witness :
    validCount (ascii "7") = true ∧ validCount (ascii "-12") = true ∧
      ∃ s1 s2, newStackTrace (ascii "7" ++ sepAt ++ ascii "foo\nbar") = .ok s1 ∧
        newStackTrace (ascii "-12" ++ sepAt ++ ascii "foo\nbar") = .ok s2 ∧ s1.Sum = s2.Sum ∧
        s1.Sum = (ascii "foo\nbar").foldl
          (fun h x => ((h ^^^ x.val) * 16777619) % 2 ^ 32) 2166136261 :=
  ⟨by decide, by decide,
    newStackTrace_Sum_body_only (ascii "foo\nbar") (ascii "7") (ascii "-12") (by decide)
      (by decide)⟩

/-! ## Pieces without a header -/

theorem hasPrefix_goroutine_head (v : GoString) (h : HasPrefix v goroutineLabel = true) :
    ∃ rest, v = 103 :: rest := by
  cases v with
  | nil => simp [HasPrefix, goroutineLabel] at h
  | cons c cs =>
    simp only [HasPrefix, goroutineLabel, List.isPrefixOf, Bool.and_eq_true, beq_iff_eq] at h
    exact ⟨cs, by rw [h.1.symm]⟩

/-- A non-empty piece that does not begin with `"goroutine"` is handed to `newStackTrace` as it
stands. -/
theorem pieceTrace_plain (v : GoString) (hne : v ≠ []) (hp : HasPrefix v goroutineLabel = false) :
    pieceTrace v = (newStackTrace v).map some := by
  unfold pieceTrace
  simp [hp, hne]

theorem valid_record_plain (c b : GoString) (hc : validCount c = true) :
    c ++ sepAt ++ b ≠ [] ∧ HasPrefix (c ++ sepAt ++ b) goroutineLabel = false := by
  obtain ⟨hne, -⟩ := validCount_chars c hc
  refine ⟨by simp [hne], ?_⟩
  cases hh : HasPrefix (c ++ sepAt ++ b) goroutineLabel with
  | false => rfl
  | true =>
    obtain ⟨rest, hrest⟩ := hasPrefix_goroutine_head _ hh
    cases c with
    | nil => exact absurd rfl hne
    | cons x xs =>
      simp only [List.cons_append, List.cons.injEq] at hrest
      exact absurd hrest.1 (validCount_ne _ hc x (List.mem_cons_self _ _)).2.2

theorem Index_none_of_not_mem (s : GoString) (h : Byte) (t : GoString) (hs : ∀ x ∈ s, x ≠ h) :
    Index s (h :: t) = none := by
  induction s with
  | nil => simp [Index]
  | cons c cs ih =>
    have hc : c ≠ h := hs c (List.mem_cons_self _ _)
    rw [Index, if_neg, ih (fun x hx => hs x (List.mem_cons_of_mem _ hx))]
    · rfl
    · simp [HasPrefix, List.isPrefixOf, Ne.symm hc]

theorem Split_of_no_newline (s : GoString) (hs : ∀ x ∈ s, x ≠ 10) : Split s sepBlank = [s] := by
  have hi : Index s sepBlank = none := Index_none_of_not_mem s 10 [10] hs
  unfold Split
  cases hl : s.length with
  | zero => rfl
  | succ n => simp [genSplit, hi]

/-- Claim C13. Empty body is valid: for every valid count token `c`, `newStackTrace` on
`c + " @ "` succeeds with the count written by `c`, `Data = ""` and `Sum = 2166136261`, the
FNV-1a hash of the empty byte string; the loop of `newFile`, meeting this piece with a count
above the threshold, stores the record under the key `2166136261`, and so `newFile` on the dump
made of this one record yields exactly that entry. -/
theorem newStackTrace_empty_body (c : GoString) (hc : validCount c = true) :
    newStackTrace (c ++ sepAt) =
        .ok { Num := countValue c, Data := [], Sum := 2166136261 } ∧
      fnv32a [] = 2166136261 ∧
      (∀ (t : Int) (ps : List GoString) (m : StackMap), countValue c > t →
        newFileLoop t ((c ++ sepAt) :: ps) m =
          newFileLoop t ps (m.insert 2166136261 ⟨countValue c, [], 2166136261⟩)) ∧
      (∀ t : Int, countValue c > t →
        newFile (c ++ sepAt) t =
          .ok ⟨(∅ : StackMap).insert 2166136261 ⟨countValue c, [], 2166136261⟩⟩) := by
  have hn : newStackTrace (c ++ sepAt) =
      .ok { Num := countValue c, Data := [], Sum := 2166136261 } := by
    have := newStackTrace_valid c [] hc
    simpa using this
  have hpl := valid_record_plain c [] hc
  simp only [List.append_nil] at hpl
  have hpt : pieceTrace (c ++ sepAt) =
      .ok (some { Num := countValue c, Data := [], Sum := 2166136261 }) := by
    rw [pieceTrace_plain _ hpl.1 hpl.2, hn]
    rfl
  have hloop : ∀ (t : Int) (ps : List GoString) (m : StackMap), countValue c > t →
      newFileLoop t ((c ++ sepAt) :: ps) m =
        newFileLoop t ps (m.insert 2166136261 ⟨countValue c, [], 2166136261⟩) := by
    intro t ps m hgt
    rw [newFileLoop_cons, hpt]
    simp only [hgt, if_true]
  refine ⟨hn, rfl, hloop, ?_⟩
  intro t hgt
  have hs : Split (c ++ sepAt) sepBlank = [c ++ sepAt] := by
    apply Split_of_no_newline
    intro x hx
    rcases List.mem_append.1 hx with h | h
    · exact (validCount_ne c hc x h).2.1
    · simp only [sepAt, List.mem_cons, List.mem_singleton, List.not_mem_nil, or_false] at h
      rcases h with rfl | rfl | rfl <;> decide
  unfold newFile
  rw [hs, hloop t [] ∅ hgt]
  rfl

/-- Instance of `newStackTrace_empty_body`: the count `12`. -/
theorem newStackTrace_empty_body_witness :
    validCount (ascii "12") = true ∧
      (newStackTrace (ascii "12" ++ sepAt) =
        .ok { Num := countValue (ascii "12"), Data := [], Sum := 2166136261 } ∧
      fnv32a [] = 2166136261 ∧
      (∀ (t : Int) (ps : List GoString) (m : StackMap), countValue (ascii "12") > t →
        newFileLoop t ((ascii "12" ++ sepAt) :: ps) m =
          newFileLoop t ps (m.insert 2166136261 ⟨countValue (ascii "12"), [], 2166136261⟩)) ∧
      (∀ t : Int, countValue (ascii "12") > t →
        newFile (ascii "12" ++ sepAt) t =
          .ok ⟨(∅ : StackMap).insert 2166136261 ⟨countValue (ascii "12"), [], 2166136261⟩⟩)) :=
  ⟨by decide, newStackTrace_empty_body (ascii "12") (by decide)⟩

/-! ## Header removal -/

theorem hasPrefix_append_right (hdr p rest : GoString) (h : HasPrefix hdr p = true) :
    HasPrefix (hdr ++ rest) p = true := by
  unfold HasPrefix at h ⊢
  rw [List.isPrefixOf_iff_prefix] at h ⊢
  exact h.trans (List.prefix_append _ _)

theorem recordText_header (hdr rest : GoString) (hp : HasPrefix hdr goroutineLabel = true)
    (hnl : ∀ c ∈ hdr, c ≠ 10) : recordText (hdr ++ 10 :: rest) = some rest := by
  have hi : Index (hdr ++ 10 :: rest) sepLine = some hdr.length :=
    Index_append_sep hdr rest 10 [] hnl
  unfold recordText
  rw [hasPrefix_append_right hdr _ _ hp, if_pos rfl, hi]
  simp

/-- A piece made of a header line that begins with `"goroutine"`, a newline and a text `rest`
is handed to `newStackTrace` as `rest`. -/
theorem pieceTrace_header (hdr rest : GoString) (hp : HasPrefix hdr goroutineLabel = true)
    (hnl : ∀ c ∈ hdr, c ≠ 10) :
    pieceTrace (hdr ++ 10 :: rest) = (newStackTrace rest).map some :=
  pieceTrace_of_recordText _ rest (by simp) (recordText_header hdr rest hp hnl)

/-- Claim C17. Header removal: a piece made of a first line that begins with `"goroutine"`, a
newline and a text `rest` is parsed as `rest`, all of it and nothing else; when `rest` is a valid
count, `" @ "` and a body, the record has that count and that body with every later newline; and
the record of a piece that does not begin with `"goroutine"` is the record parsed from the whole
piece (a non-empty such piece is handed to `newStackTrace` as it stands). -/
theorem pieceTrace_header_removal :
    (∀ hdr rest : GoString, HasPrefix hdr goroutineLabel = true → (∀ c ∈ hdr, c ≠ 10) →
      pieceTrace (hdr ++ 10 :: rest) = (newStackTrace rest).map some) ∧
    (∀ hdr c b : GoString, HasPrefix hdr goroutineLabel = true → (∀ x ∈ hdr, x ≠ 10) →
      validCount c = true →
      pieceTrace (hdr ++ 10 :: (c ++ sepAt ++ b)) =
        .ok (some { Num := countValue c, Data := b, Sum := fnv32a b })) ∧
    (∀ v : GoString, HasPrefix v goroutineLabel = false →
      ∀ s, pieceTrace v = .ok (some s) ↔ newStackTrace v = .ok s) ∧
    (∀ v : GoString, HasPrefix v goroutineLabel = false → v ≠ [] →
      pieceTrace v = (newStackTrace v).map some) := by
  refine ⟨pieceTrace_header, ?_, ?_, fun v hp hne => pieceTrace_plain v hne hp⟩
  · intro hdr c b hp hnl hc
    rw [pieceTrace_header hdr _ hp hnl, newStackTrace_valid c b hc]
    rfl
  · intro v hp s
    by_cases hv : v = []
    · subst hv
      rw [pieceTrace_nil, newStackTrace_of_no_index [] (by decide)]
      simp
    · rw [pieceTrace_plain v hv hp]
      cases newStackTrace v with
      | error e => simp [Except.map]
      | ok s2 => simp [Except.map]

set_option maxRecDepth 4096 in
/-- Instance of `pieceTrace_header_removal`: a header line, then a record of two lines. -/
theorem pieceTrace_header_removal_witness :
    HasPrefix (ascii "goroutine 3:") goroutineLabel = true ∧
    (∀ c ∈ ascii "goroutine 3:", c ≠ 10) ∧
    validCount (ascii "3") = true ∧
    pieceTrace (ascii "goroutine 3:" ++ 10 :: (ascii "3" ++ sepAt ++ ascii "a\nb")) =
      .ok (some { Num := countValue (ascii "3"), Data := ascii "a\nb",
                  Sum := fnv32a (ascii "a\nb") }) ∧
    HasPrefix (ascii "3 @ a\nb") goroutineLabel = false ∧ ascii "3 @ a\nb" ≠ [] ∧
    pieceTrace (ascii "3 @ a\nb") = (newStackTrace (ascii "3 @ a\nb")).map some :=
  ⟨by decide, by decide, by decide,
    pieceTrace_header_removal.2.1 _ _ _ (by decide) (by decide) (by decide),
    by decide, by decide, pieceTrace_header_removal.2.2.2 _ (by decide) (by decide)⟩

/-! ## The exact failure condition of `newFile` -/

theorem Index_spec (s sep : GoString) (m : Nat) (h : Index s sep = some m) :
    s = s.take m ++ sep ++ s.drop (m + sep.length) := by
  induction s generalizing m with
  | nil =>
    unfold Index at h
    split at h
    · rename_i hs
      simp only [Option.some.injEq] at h
      subst h hs
      rfl
    · simp at h
  | cons c cs ih =>
    unfold Index at h
    split at h
    · rename_i hp
      simp only [Option.some.injEq] at h
      subst h
      obtain ⟨r, hr⟩ := List.isPrefixOf_iff_prefix.1 hp
      rw [← hr]
      simp
    · simp only [Option.map_eq_some'] at h
      obtain ⟨k, hk, rfl⟩ := h
      have := ih k hk
      have e : k + 1 + sep.length = (k + sep.length) + 1 := by omega
      rw [e]
      simp only [List.take_succ_cons, List.drop_succ_cons, List.cons_append, List.cons.injEq,
        true_and]
      simpa using this

theorem Index_drop_none (s sep : GoString) (h : Index s sep = none) (k : Nat) :
    Index (s.drop k) sep = none := by
  induction s generalizing k with
  | nil => simpa using h
  | cons c cs ih =>
    cases k with
    | zero => simpa using h
    | succ k =>
      unfold Index at h
      split at h
      · simp at h
      · simp only [Option.map_eq_none'] at h
        simpa using ih h k

/-- The record parser succeeds exactly on a valid count token, `" @ "` and a body. -/
theorem newStackTrace_ok_iff (w : GoString) :
    (∃ s, newStackTrace w = .ok s) ↔
      ∃ c b, w = c ++ sepAt ++ b ∧ validCount c = true := by
  constructor
  · rintro ⟨s, hs⟩
    cases hi : Index w sepAt with
    | none => rw [newStackTrace_of_no_index w hi] at hs; simp at hs
    | some m =>
      refine ⟨w.take m, w.drop (m + sepAt.length), Index_spec w sepAt m hi, ?_⟩
      rw [newStackTrace_of_index w m hi] at hs
      rw [← ParseInt_isSome]
      cases hp : ParseInt (w.take m) with
      | none => rw [hp] at hs; simp at hs
      | some n => rfl
  · rintro ⟨c, b, rfl, hc⟩
    exact ⟨_, newStackTrace_valid c b hc⟩

/-- A non-empty piece that begins with `"goroutine"` and has no newline fails on `inner[1]`. -/
theorem pieceTrace_header_no_newline (v : GoString) (hp : HasPrefix v goroutineLabel = true)
    (hi : Index v sepLine = none) : pieceTrace v = .error .indexOutOfRange := by
  obtain ⟨rest, rfl⟩ := hasPrefix_goroutine_head v hp
  unfold pieceTrace
  simp [hp, SplitN2_of_no_index _ sepLine hi]

/-- A piece yields a record or is skipped exactly when it is empty or its record text is a
valid count token, `" @ "` and a body. -/
theorem pieceTrace_ok_iff (v : GoString) :
    (∃ o, pieceTrace v = .ok o) ↔
      v = [] ∨ ∃ w c b, recordText v = some w ∧ w = c ++ sepAt ++ b ∧ validCount c = true := by
  by_cases hv : v = []
  · subst hv
    simp [pieceTrace_nil]
  · simp only [hv, false_or]
    cases hr : recordText v with
    | none =>
      have hp : HasPrefix v goroutineLabel = true := by
        unfold recordText at hr
        by_contra hcon
        simp [hcon] at hr
      have hi : Index v sepLine = none := by
        unfold recordText at hr
        simpa [hp] using hr
      rw [pieceTrace_header_no_newline v hp hi]
      simp
    | some w =>
      rw [pieceTrace_of_recordText v w hv hr]
      constructor
      · rintro ⟨o, ho⟩
        cases hn : newStackTrace w with
        | error e => rw [hn] at ho; simp [Except.map] at ho
        | ok s =>
          obtain ⟨c, b, hw, hc⟩ := (newStackTrace_ok_iff w).1 ⟨s, hn⟩
          exact ⟨w, c, b, rfl, hw, hc⟩
      · rintro ⟨w2, c, b, hw2, hw, hc⟩
        simp only [Option.some.injEq] at hw2
        subst hw2
        obtain ⟨s, hs⟩ := (newStackTrace_ok_iff w).2 ⟨c, b, hw, hc⟩
        exact ⟨some s, by rw [hs]; rfl⟩

/-- A non-empty piece without `" @ "` fails with an index out of range. -/
theorem pieceTrace_no_delimiter (v : GoString) (hv : v ≠ []) (hi : Index v sepAt = none) :
    pieceTrace v = .error .indexOutOfRange := by
  cases hr : recordText v with
  | none =>
    have hp : HasPrefix v goroutineLabel = true := by
      unfold recordText at hr
      by_contra hcon
      simp [hcon] at hr
    have hl : Index v sepLine = none := by
      unfold recordText at hr
      simpa [hp] using hr
    exact pieceTrace_header_no_newline v hp hl
  | some w =>
    have hw : Index w sepAt = none := by
      unfold recordText at hr
      split at hr
      · simp only [Option.map_eq_some'] at hr
        obtain ⟨m, -, rfl⟩ := hr
        exact Index_drop_none v sepAt hi _
      · simp only [Option.some.injEq] at hr
        subst hr
        exact hi
    rw [pieceTrace_of_recordText v w hv hr, newStackTrace_of_no_index w hw]
    rfl

/-- The loop of `newFile` fails with the failure of the first piece that fails. -/
theorem newFileLoop_error_first (t : Int) (pre : List GoString) (v : GoString)
    (post : List GoString) (e : Panic) (m : StackMap)
    (hpre : ∀ u ∈ pre, ∃ o, pieceTrace u = .ok o) (hv : pieceTrace v = .error e) :
    newFileLoop t (pre ++ v :: post) m = .error e := by
  induction pre generalizing m with
  | nil => rw [List.nil_append, newFileLoop_cons, hv]
  | cons u us ih =>
    obtain ⟨o, ho⟩ := hpre u (List.mem_cons_self _ _)
    have hus : ∀ x ∈ us, ∃ o, pieceTrace x = .ok o :=
      fun x hx => hpre x (List.mem_cons_of_mem _ hx)
    rw [List.cons_append, newFileLoop_cons, ho]
    cases o with
    | none => exact ih m hus
    | some s => exact ih _ hus

/-- Claim C20. Exact failure condition of snapshot construction: `newFile` completes on a text
exactly when every piece between `"\n\n"` separators is empty or has, after removal of its
first line when it begins with `"goroutine"`, the form valid count token, `" @ "`, body; when it
fails, it fails with the failure of the first piece that fails; a non-empty piece without
`" @ "` and a piece that begins with `"goroutine"` but has no newline fail with an index out of
range, not with the invalid-integer failure. -/
theorem newFile_ok_iff_pieces (data : GoString) (t : Int) :
    ((∃ f, newFile data t = .ok f) ↔
      ∀ v ∈ Split data sepBlank,
        v = [] ∨ ∃ w c b, recordText v = some w ∧ w = c ++ sepAt ++ b ∧ validCount c = true) ∧
    (∀ pre v post e, Split data sepBlank = pre ++ v :: post →
      (∀ u ∈ pre, ∃ o, pieceTrace u = .ok o) → pieceTrace v = .error e →
      newFile data t = .error e) ∧
    (∀ v : GoString, v ≠ [] → Index v sepAt = none →
      pieceTrace v = .error .indexOutOfRange) ∧
    (∀ v : GoString, HasPrefix v goroutineLabel = true → Index v sepLine = none →
      pieceTrace v = .error .indexOutOfRange) := by
  refine ⟨?_, ?_, pieceTrace_no_delimiter, pieceTrace_header_no_newline⟩
  · have hloop := newFileLoop_ok_iff t (Split data sepBlank) ∅
    constructor
    · rintro ⟨f, hf⟩ v hv
      exact (pieceTrace_ok_iff v).1 (hloop.1 ⟨_, newFile_ok data t f hf⟩ v hv)
    · intro h
      obtain ⟨m, hm⟩ := hloop.2 (fun v hv => (pieceTrace_ok_iff v).2 (h v hv))
      exact ⟨⟨m⟩, by simp [newFile, hm, Except.map]⟩
  · intro pre v post e hsplit hpre hv
    unfold newFile
    rw [hsplit, newFileLoop_error_first t pre v post e ∅ hpre hv]
    rfl

/-- Instance of `newFile_ok_iff_pieces`: a dump whose second piece has no `" @ "`. -/
theorem newFile_ok_iff_pieces_witness :
    Split (ascii "goroutine 1:\n12 @ foo\n\nbar") sepBlank =
        [ascii "goroutine 1:\n12 @ foo"] ++ ascii "bar" :: [] ∧
      pieceTrace (ascii "goroutine 1:\n12 @ foo") =
        .ok (some ⟨12, ascii "foo", fnv32a (ascii "foo")⟩) ∧
      pieceTrace (ascii "bar") = .error .indexOutOfRange ∧
      newFile (ascii "goroutine 1:\n12 @ foo\n\nbar") 10 = .error .indexOutOfRange :=
  ⟨by decide, by decide, by decide,
    (newFile_ok_iff_pieces (ascii "goroutine 1:\n12 @ foo\n\nbar") 10).2.1
      [ascii "goroutine 1:\n12 @ foo"] (ascii "bar") [] .indexOutOfRange (by decide)
      (fun u hu => by
        rw [List.mem_singleton.1 hu]
        exact ⟨some ⟨12, ascii "foo", fnv32a (ascii "foo")⟩, by decide⟩)
      (by decide)⟩

/-! ## Records with the same fingerprint -/

theorem newFileLoop_append (t : Int) (a b : List GoString) (m m' : StackMap)
    (h : newFileLoop t (a ++ b) m = .ok m') :
    ∃ m1, newFileLoop t a m = .ok m1 ∧ newFileLoop t b m1 = .ok m' := by
  induction a generalizing m with
  | nil => exact ⟨m, rfl, h⟩
  | cons v a ih =>
    rw [List.cons_append, newFileLoop_cons] at h
    rw [newFileLoop_cons]
    cases hv : pieceTrace v with
    | error e => rw [hv] at h; simp at h
    | ok o =>
      rw [hv] at h
      cases o with
      | none => exact ih m h
      | some s => exact ih _ h

/-- The loop of `newFile` leaves alone every key under which it stores no record. -/
theorem newFileLoop_lookup_preserved (t : Int) (ps : List GoString) (m m' : StackMap) (k : Nat)
    (h : newFileLoop t ps m = .ok m')
    (hk : ∀ u ∈ ps, ∀ s, pieceTrace u = .ok (some s) → s.Num > t → s.Sum ≠ k) :
    m'.lookup k = m.lookup k := by
  induction ps generalizing m with
  | nil =>
    simp only [newFileLoop, Except.ok.injEq] at h
    rw [h]
  | cons v ps ih =>
    have hps : ∀ u ∈ ps, ∀ s, pieceTrace u = .ok (some s) → s.Num > t → s.Sum ≠ k :=
      fun u hu => hk u (List.mem_cons_of_mem _ hu)
    rw [newFileLoop_cons] at h
    cases hv : pieceTrace v with
    | error e => rw [hv] at h; simp at h
    | ok o =>
      rw [hv] at h
      cases o with
      | none => exact ih m h hps
      | some s =>
        simp only at h
        rw [ih _ h hps]
        by_cases hgt : s.Num > t
        · have hne : k ≠ s.Sum := Ne.symm (hk v (List.mem_cons_self _ _) s hv hgt)
          simp only [hgt, if_true]
          exact AList.lookup_insert_ne hne
        · simp only [hgt, if_false]

/-- Under the hash of a record above the threshold the snapshot holds the last such record of
the text. -/
theorem newFile_last_record (data : GoString) (t : Int) (f : file) (pre post : List GoString)
    (v : GoString) (s : stacktrace) (hf : newFile data t = .ok f)
    (hsplit : Split data sepBlank = pre ++ v :: post)
    (hv : pieceTrace v = .ok (some s)) (hn : s.Num > t)
    (hlast : ∀ u ∈ post, ∀ s2, pieceTrace u = .ok (some s2) → s2.Num > t → s2.Sum ≠ s.Sum) :
    f.Stacks.lookup s.Sum = some s := by
  have hl := newFile_ok data t f hf
  rw [hsplit] at hl
  obtain ⟨m1, -, h2⟩ := newFileLoop_append t pre (v :: post) ∅ f.Stacks hl
  rw [newFileLoop_cons, hv] at h2
  simp only [hn, if_true] at h2
  rw [newFileLoop_lookup_preserved t post _ _ s.Sum h2 hlast]
  exact AList.lookup_insert m1

/-- Claim C18. Later record wins: when `newFile` builds a snapshot from a text in which two
pieces yield records `s1` (earlier) and `s2` (later) above the threshold with the same hash, and
no piece after the second yields a record above the threshold with that hash, the snapshot holds
`s2` under that hash, and that key occurs once among its entries. -/
theorem newFile_later_record_wins (data : GoString) (t : Int) (f : file)
    (pre mid post : List GoString) (v1 v2 : GoString) (s1 s2 : stacktrace)
    (hf : newFile data t = .ok f)
    (hsplit : Split data sepBlank = pre ++ v1 :: (mid ++ v2 :: post))
    (_h1 : pieceTrace v1 = .ok (some s1)) (h2 : pieceTrace v2 = .ok (some s2))
    (_hn1 : s1.Num > t) (hn2 : s2.Num > t) (hsum : s1.Sum = s2.Sum)
    (hlast : ∀ u ∈ post, ∀ s, pieceTrace u = .ok (some s) → s.Num > t → s.Sum ≠ s2.Sum) :
    f.Stacks.lookup s1.Sum = some s2 ∧ f.Stacks.keys.count s1.Sum = 1 := by
  have hsplit2 : Split data sepBlank = (pre ++ v1 :: mid) ++ v2 :: post := by
    rw [hsplit]
    simp
  have hlook : f.Stacks.lookup s2.Sum = some s2 :=
    newFile_last_record data t f _ post v2 s2 hf hsplit2 h2 hn2 hlast
  rw [hsum]
  refine ⟨hlook, ?_⟩
  have hmem : s2.Sum ∈ f.Stacks.keys := by
    rw [← AList.mem_keys, ← AList.lookup_isSome, hlook]
    rfl
  exact List.count_eq_one_of_mem f.Stacks.keys_nodup hmem

/-- Instance of `newFile_later_record_wins`: the body `foo` with counts 12 and then 30, a
record of another body in between and one after. -/
theorem newFile_later_record_wins_witness :
    newFile (ascii "12 @ foo\n\n20 @ bar\n\n30 @ foo\n\n15 @ baz") 10 =
        .ok ⟨(((∅ : StackMap).insert (fnv32a (ascii "foo")) ⟨12, ascii "foo", fnv32a (ascii "foo")⟩
          |>.insert (fnv32a (ascii "bar")) ⟨20, ascii "bar", fnv32a (ascii "bar")⟩)
          |>.insert (fnv32a (ascii "foo")) ⟨30, ascii "foo", fnv32a (ascii "foo")⟩)
          |>.insert (fnv32a (ascii "baz")) ⟨15, ascii "baz", fnv32a (ascii "baz")⟩⟩ ∧
      ((((∅ : StackMap).insert (fnv32a (ascii "foo")) ⟨12, ascii "foo", fnv32a (ascii "foo")⟩
          |>.insert (fnv32a (ascii "bar")) ⟨20, ascii "bar", fnv32a (ascii "bar")⟩)
          |>.insert (fnv32a (ascii "foo")) ⟨30, ascii "foo", fnv32a (ascii "foo")⟩)
          |>.insert (fnv32a (ascii "baz")) ⟨15, ascii "baz", fnv32a (ascii "baz")⟩).lookup
        (fnv32a (ascii "foo")) = some ⟨30, ascii "foo", fnv32a (ascii "foo")⟩ ∧
      ((((∅ : StackMap).insert (fnv32a (ascii "foo")) ⟨12, ascii "foo", fnv32a (ascii "foo")⟩
          |>.insert (fnv32a (ascii "bar")) ⟨20, ascii "bar", fnv32a (ascii "bar")⟩)
          |>.insert (fnv32a (ascii "foo")) ⟨30, ascii "foo", fnv32a (ascii "foo")⟩)
          |>.insert (fnv32a (ascii "baz")) ⟨15, ascii "baz", fnv32a (ascii "baz")⟩).keys.count
        (fnv32a (ascii "foo")) = 1 :=
  ⟨by decide,
    newFile_later_record_wins (ascii "12 @ foo\n\n20 @ bar\n\n30 @ foo\n\n15 @ baz") 10 ⟨_⟩
      [] [ascii "20 @ bar"] [ascii "15 @ baz"] (ascii "12 @ foo") (ascii "30 @ foo")
      ⟨12, ascii "foo", fnv32a (ascii "foo")⟩ ⟨30, ascii "foo", fnv32a (ascii "foo")⟩
      (by decide) (by decide) (by decide) (by decide) (by decide) (by decide) rfl
      (fun u hu s hs _ => by
        rw [List.mem_singleton.1 hu] at hs
        have e : s = ⟨15, ascii "baz", fnv32a (ascii "baz")⟩ := by
          have h0 : pieceTrace (ascii "15 @ baz") =
              .ok (some ⟨15, ascii "baz", fnv32a (ascii "baz")⟩) := by decide
          rw [h0] at hs
          simp only [Except.ok.injEq, Option.some.injEq] at hs
          exact hs.symm
        rw [e]
        decide)⟩

/-! ## `diffFiles` on the store -/

theorem Heap.extend_read_new (h : Heap) (w : StackMap) :
    (h.extend w).read h.maps.length = w := by
  simp [Heap.extend, Heap.read]

theorem Heap.extend_read_old (h : Heap) (w : StackMap) (a : Nat) (ha : a < h.maps.length) :
    (h.extend w).read a = h.read a := by
  unfold Heap.extend Heap.read
  exact List.getD_append _ _ _ _ ha

theorem Heap.extend_write (h : Heap) (w m : StackMap) :
    (h.extend w).write h.maps.length m = h.extend m := by
  simp [Heap.extend, Heap.write]

theorem heapCopyLoop_extend (h : Heap) (es : List ((_ : Nat) × stacktrace)) (w : StackMap) :
    heapCopyLoop h.maps.length es (h.extend w) =
      h.extend (es.foldl (fun acc e => acc.insert e.1 e.2) w) := by
  induction es generalizing w with
  | nil => rfl
  | cons e es ih =>
    rw [heapCopyLoop, Heap.extend_read_new, Heap.extend_write, ih]
    rfl

theorem heapDiffStep_extend (h : Heap) (d : Int) (st : DiffState) (k : Nat) (r : stacktrace) :
    heapDiffStep h.maps.length d
        { heap := h.extend st.newleftmap, same := st.same, rightnotleft := st.rightnotleft } k r =
      { heap := h.extend (diffStep d st k r).newleftmap
        same := (diffStep d st k r).same
        rightnotleft := (diffStep d st k r).rightnotleft } := by
  unfold heapDiffStep diffStep
  simp only [Heap.extend_read_new, Heap.extend_write]
  cases st.newleftmap.lookup k <;> rfl

theorem heapDiffLoop_extend (h : Heap) (d : Int) (es : List ((_ : Nat) × stacktrace))
    (st : DiffState) :
    es.foldl (fun st e => heapDiffStep h.maps.length d st e.1 e.2)
        { heap := h.extend st.newleftmap, same := st.same, rightnotleft := st.rightnotleft } =
      { heap := h.extend (es.foldl (fun st e => diffStep d st e.1 e.2) st).newleftmap
        same := (es.foldl (fun st e => diffStep d st e.1 e.2) st).same
        rightnotleft := (es.foldl (fun st e => diffStep d st e.1 e.2) st).rightnotleft } := by
  induction es generalizing st with
  | nil => rfl
  | cons e es ih =>
    rw [List.foldl_cons, List.foldl_cons, heapDiffStep_extend, ih]

/-- Running `diffFiles` on the store adds the working copy as a new object and returns what
`diffFiles` returns on the two maps referred to. -/
theorem diffFilesHeap_eq (h : Heap) (left right : fileRef) (d : Int)
    (hl : left.Stacks < h.maps.length) (hr : right.Stacks < h.maps.length) :
    diffFilesHeap h left right d =
      (h.extend (diffLoop ⟨h.read left.Stacks⟩ ⟨h.read right.Stacks⟩ d).newleftmap,
        diffFiles ⟨h.read left.Stacks⟩ ⟨h.read right.Stacks⟩ d) := by
  have hmake : h.make = (h.extend ∅, h.maps.length) := rfl
  unfold diffFilesHeap
  rw [hmake]
  simp only [Heap.extend_read_old h _ _ hl, heapCopyLoop_extend, Heap.extend_read_old h _ _ hr]
  have hloop := heapDiffLoop_extend h d (h.read right.Stacks).entries
    { newleftmap := copyMap (h.read left.Stacks), same := [], rightnotleft := [] }
  simp only [copyMap] at hloop
  rw [hloop]
  simp only [Heap.extend_read_new]
  rfl

/-- Claim C15. `diffFiles` leaves its inputs untouched: run on a store in which `left.Stacks`
and `right.Stacks` refer to map objects (possibly the same one), `diffFiles` leaves every map
object that existed before the call as it was, in particular the two it was given, keys and
records alike; what it writes and deletes is in the map object it makes; and its three results
are those computed from the two maps. -/
theorem diffFilesHeap_frame (h : Heap) (left right : fileRef) (d : Int)
    (hl : left.Stacks < h.maps.length) (hr : right.Stacks < h.maps.length) :
    (diffFilesHeap h left right d).1.read left.Stacks = h.read left.Stacks ∧
      (diffFilesHeap h left right d).1.read right.Stacks = h.read right.Stacks ∧
      (∀ a, a < h.maps.length → (diffFilesHeap h left right d).1.read a = h.read a) ∧
      (diffFilesHeap h left right d).2 =
        diffFiles ⟨h.read left.Stacks⟩ ⟨h.read right.Stacks⟩ d := by
  rw [diffFilesHeap_eq h left right d hl hr]
  exact ⟨Heap.extend_read_old h _ _ hl, Heap.extend_read_old h _ _ hr,
    fun a ha => Heap.extend_read_old h _ a ha, rfl⟩

/-- Instance of `diffFilesHeap_frame`: the two sample snapshots as objects 0 and 1. -/
theorem diffFilesHeap_frame_witness :
    (0 : Nat) < exampleHeap.maps.length ∧ (1 : Nat) < exampleHeap.maps.length ∧
      ((diffFilesHeap exampleHeap ⟨0⟩ ⟨1⟩ 5).1.read 0 = exampleHeap.read 0 ∧
      (diffFilesHeap exampleHeap ⟨0⟩ ⟨1⟩ 5).1.read 1 = exampleHeap.read 1 ∧
      (∀ a, a < exampleHeap.maps.length →
        (diffFilesHeap exampleHeap ⟨0⟩ ⟨1⟩ 5).1.read a = exampleHeap.read a) ∧
      (diffFilesHeap exampleHeap ⟨0⟩ ⟨1⟩ 5).2 =
        diffFiles ⟨exampleHeap.read 0⟩ ⟨exampleHeap.read 1⟩ 5) :=
  ⟨by decide, by decide, diffFilesHeap_frame exampleHeap ⟨0⟩ ⟨1⟩ 5 (by decide) (by decide)⟩

end Gdiff
